/-
Verification of the `continuity` BitTorrent client core against its design
specification.  The Rust sources under `src/` are shallowly embedded as
executable Lean definitions: byte streams are `List Nat` (each element a
byte value), machine integers are `Nat` with explicit reduction modulo
`2 ^ 32` where the source performs an `as u32` cast or wrapping
arithmetic, fallible code returns `Option` / `Except`, and a Rust panic
(failed `assert!`, `unwrap`, or `copy_from_slice` length mismatch) is
modelled as `none` / a dedicated `panic` outcome.
-/
import Mathlib

namespace Continuity

/-! ## Byte-level utilities -/

/-- Truncation to 32 bits, the effect of an `as u32` cast. -/
def w32 (n : Nat) : Nat := n % 4294967296

/-- Big-endian bytes of a 32-bit value (`write_u32::<BE>`). -/
def u32be (n : Nat) : List Nat :=
  [n / 16777216 % 256, n / 65536 % 256, n / 256 % 256, n % 256]

/-- Big-endian bytes of a 16-bit value (`write_u16::<BE>`). -/
def u16be (n : Nat) : List Nat := [n / 256 % 256, n % 256]

/-- Big-endian bytes of a 64-bit value. -/
def u64be (n : Nat) : List Nat :=
  [n / 72057594037927936 % 256, n / 281474976710656 % 256,
   n / 1099511627776 % 256, n / 4294967296 % 256,
   n / 16777216 % 256, n / 65536 % 256, n / 256 % 256, n % 256]

/-- Value of a big-endian byte list. -/
def beVal (bs : List Nat) : Nat := bs.foldl (fun a b => a * 256 + b) 0

/-! ## SHA-1 (model of the `crypto::sha1` dependency used by
`Info::verify_piece`) -/

/-- Left-rotation of a 32-bit word by `s` places. -/
def rotl (s x : Nat) : Nat := w32 (x <<< s) ||| (x >>> (32 - s))

/-- SHA-1 message padding: a `0x80` byte, zero bytes up to 56 mod 64, and
the bit length as a 64-bit big-endian value. -/
def sha1pad (msg : List Nat) : List Nat :=
  msg ++ [128] ++ List.replicate ((119 - msg.length % 64) % 64) 0
      ++ u64be (8 * msg.length)

/-- Group bytes into big-endian 32-bit words. -/
def toWords : List Nat → List Nat
  | a :: b :: c :: d :: rest => (((a * 256 + b) * 256 + c) * 256 + d) :: toWords rest
  | _ => []

/-- Next word of the SHA-1 message schedule. -/
def extendStep (ws : List Nat) : Nat :=
  rotl 1 ((ws.getD (ws.length - 3) 0 ^^^ ws.getD (ws.length - 8) 0) ^^^
          (ws.getD (ws.length - 14) 0 ^^^ ws.getD (ws.length - 16) 0))

/-- Extend the 16 block words by `n` further schedule words. -/
def extendWords : Nat → List Nat → List Nat
  | 0, ws => ws
  | n + 1, ws => extendWords n (ws ++ [extendStep ws])

/-- SHA-1 round function, selected by round index. -/
def sha1f (i b c d : Nat) : Nat :=
  if i < 20 then (b &&& c) ||| ((b ^^^ 4294967295) &&& d)
  else if i < 40 then (b ^^^ c) ^^^ d
  else if i < 60 then ((b &&& c) ||| (b &&& d)) ||| (c &&& d)
  else (b ^^^ c) ^^^ d

/-- SHA-1 round constant, selected by round index. -/
def sha1k (i : Nat) : Nat :=
  if i < 20 then 1518500249
  else if i < 40 then 1859775393
  else if i < 60 then 2400959708
  else 3395469782

/-- The 80 compression rounds over the message schedule. -/
def sha1rounds : List Nat → Nat → Nat → Nat → Nat → Nat → Nat →
    Nat × Nat × Nat × Nat × Nat
  | [], _, a, b, c, d, e => (a, b, c, d, e)
  | w :: ws, i, a, b, c, d, e =>
    sha1rounds ws (i + 1) (w32 (rotl 5 a + sha1f i b c d + e + sha1k i + w))
      a (rotl 30 b) c d

/-- Running hash state `(h0, h1, h2, h3, h4)`. -/
abbrev SHA1State := Nat × Nat × Nat × Nat × Nat

/-- Compress one 64-byte block into the hash state. -/
def sha1block (st : SHA1State) (block : List Nat) : SHA1State :=
  let ws := extendWords 64 (toWords block)
  let r := sha1rounds ws 0 st.1 st.2.1 st.2.2.1 st.2.2.2.1 st.2.2.2.2
  (w32 (st.1 + r.1), w32 (st.2.1 + r.2.1), w32 (st.2.2.1 + r.2.2.1),
   w32 (st.2.2.2.1 + r.2.2.2.1), w32 (st.2.2.2.2 + r.2.2.2.2))

/-- Fold the compression function over `n` successive 64-byte blocks. -/
def sha1blocksN : Nat → SHA1State → List Nat → SHA1State
  | 0, st, _ => st
  | n + 1, st, bytes => sha1blocksN n (sha1block st (bytes.take 64)) (bytes.drop 64)

/-- SHA-1 digest of a byte list, as 20 bytes. -/
def sha1Bytes (msg : List Nat) : List Nat :=
  let padded := sha1pad msg
  let st := sha1blocksN (padded.length / 64) (1732584193, 4023233417, 2562383102, 271733878, 3285377520) padded
  u32be st.1 ++ u32be st.2.1 ++ u32be st.2.2.1 ++ u32be st.2.2.2.1 ++ u32be st.2.2.2.2

/-! ## Metainfo (`src/torrent/metainfo.rs`) -/

/-- The fields of `Info` that the swarm engine reads.  `pieces` is the
concatenation of the published 20-byte SHA-1 digests. -/
structure Metainfo where
  piece_length : Nat
  pieces : List Nat
  length : Nat
deriving DecidableEq, Repr

/-- `Info::num_pieces`: `1 + (length - 1) / piece_length`. -/
def Metainfo.num_pieces (mi : Metainfo) : Nat := 1 + (mi.length - 1) / mi.piece_length

/-- `Info::piece_size`: the last piece gets the remainder, every other
index (in range or not) gets `piece_length`. -/
def Metainfo.get_piece_size (mi : Metainfo) (index : Nat) : Nat :=
  if index = mi.num_pieces - 1 then
    mi.length - (mi.num_pieces - 1) * mi.piece_length
  else mi.piece_length

/-- The published digest for piece `index`: `pieces[20 i .. 20 (i+1)]`. -/
def Metainfo.digestFor (mi : Metainfo) (index : Nat) : List Nat :=
  (mi.pieces.drop (20 * index)).take 20

/-- `Info::verify_piece`: SHA-1 of the payload versus the published digest. -/
def Metainfo.verify_piece (mi : Metainfo) (index : Nat) (piece : List Nat) : Bool :=
  sha1Bytes piece == mi.digestFor index

/-! ## Piece assembler (`PieceBuilder`, `src/torrent/connection/receiver.rs`) -/

/-- A received sub-range of a piece. -/
structure Chunk where
  start : Nat
  data : List Nat
deriving DecidableEq, Repr

/-- The error cases of `PieceBuilder::add`. -/
inductive PieceBuilderError where
  | invalidSize (expected actual : Nat)
  | invalidBegin (size start : Nat)
  | insufficientSize (size start len : Nat)
  | invalidPiece
deriving DecidableEq, Repr

/-- Per-in-flight-piece assembly state. -/
structure PieceBuilder where
  metainfo : Metainfo
  index : Nat
  remaining : Nat
  size : Nat
  chunks : List Chunk
deriving DecidableEq, Repr

/-- `PieceBuilder::new`. -/
def PieceBuilder.new (mi : Metainfo) (index : Nat) : PieceBuilder :=
  let size := mi.get_piece_size index
  ⟨mi, index, size, size, []⟩

/-- Overwrite `buf` at position `pos` with `data` (the
`Cursor::set_position` / `write_all` step of chunk merging). -/
def writeAt (buf : List Nat) (pos : Nat) (data : List Nat) : List Nat :=
  buf.take pos ++ data ++ buf.drop (pos + data.length)

/-- Merge the stored chunks into a zero-initialized buffer of the piece
size. -/
def PieceBuilder.assemble (pb : PieceBuilder) : List Nat :=
  pb.chunks.foldl (fun b c => writeAt b c.start c.data) (List.replicate pb.size 0)

/-- `PieceBuilder::add`.  Returns the updated builder and `some payload`
when the piece completed.  The guard order, the first-full-chunk fast
path (which returns the chunk without a digest check) and the digest
verification on the buffered path mirror the source exactly. -/
def PieceBuilder.add (pb : PieceBuilder) (c : Chunk) :
    Except PieceBuilderError (PieceBuilder × Option (List Nat)) :=
  if pb.remaining < c.data.length then
    .error (.invalidSize pb.remaining c.data.length)
  else if pb.size ≤ c.start then
    .error (.invalidBegin pb.size c.start)
  else if pb.size < c.data.length + c.start then
    .error (.insufficientSize pb.size c.start c.data.length)
  else if pb.size = pb.remaining ∧ c.data.length = pb.remaining then
    .ok (pb, some c.data)
  else
    let pb' := { pb with remaining := pb.remaining - c.data.length,
                         chunks := pb.chunks ++ [c] }
    if pb'.remaining = 0 then
      let v := pb'.assemble
      if pb.metainfo.verify_piece pb.index v then .ok (pb', some v)
      else .error .invalidPiece
    else .ok (pb', none)

/-! ## Wire messages (`src/torrent/peer.rs`) -/

/-- The eleven message kinds. `bitField` carries the bit sequence of the
`BitVec`, `piece` the raw payload bytes. -/
inductive Message where
  | keepAlive
  | choke
  | unchoke
  | interested
  | notInterested
  | haveMsg (index : Nat)
  | request (index start length : Nat)
  | cancel (index start length : Nat)
  | bitField (bits : List Bool)
  | piece (index start : Nat) (data : List Nat)
  | port (p : Nat)
deriving DecidableEq, Repr

/-- Parse errors of `Message::recv`. -/
inductive PeerError where
  | invalid (id : Nat)
  | smallLength (low cur : Nat)
  | wrongLength (expected cur : Nat)
  | io
deriving DecidableEq, Repr

/-- Pack up to eight bits, most-significant-bit first, zero-padded, into
one byte (`bitvec` storage convention, as exercised by the repository's
codec tests). -/
def packByte (bits : List Bool) : Nat :=
  (bits ++ List.replicate (8 - bits.length) false).foldl
    (fun a b => 2 * a + (if b then 1 else 0)) 0

/-- Pack `n` bytes worth of bits. -/
def asSliceN : Nat → List Bool → List Nat
  | 0, _ => []
  | n + 1, bits => packByte (bits.take 8) :: asSliceN n (bits.drop 8)

/-- `BitVec::as_slice`: the byte-aligned MSB-first packing of the bits. -/
def asSlice (bits : List Bool) : List Nat := asSliceN ((bits.length + 7) / 8) bits

/-- The eight bits of a byte, most significant first. -/
def bitsOfByte (b : Nat) : List Bool :=
  [b / 128 % 2 == 1, b / 64 % 2 == 1, b / 32 % 2 == 1, b / 16 % 2 == 1,
   b / 8 % 2 == 1, b / 4 % 2 == 1, b / 2 % 2 == 1, b % 2 == 1]

/-- All bits of a byte sequence, MSB-first within each byte. -/
def unpackBits (bytes : List Nat) : List Bool :=
  bytes.foldr (fun b acc => bitsOfByte b ++ acc) []

/-- `Message::len`, with the `as u32` casts of the source. -/
def Message.len : Message → Nat
  | .keepAlive => 0
  | .choke | .unchoke | .interested | .notInterested => 1
  | .port _ => 3
  | .haveMsg _ => 5
  | .request _ _ _ | .cancel _ _ _ => 13
  | .bitField bits => w32 ((asSlice bits).length + 1)
  | .piece _ _ v => w32 (9 + v.length)

/-- `Message::id`. -/
def Message.msgId : Message → Option Nat
  | .keepAlive => none
  | .choke => some 0
  | .unchoke => some 1
  | .interested => some 2
  | .notInterested => some 3
  | .haveMsg _ => some 4
  | .bitField _ => some 5
  | .request _ _ _ => some 6
  | .piece _ _ _ => some 7
  | .cancel _ _ _ => some 8
  | .port _ => some 9

/-- `Message::send_preamble`: four length bytes and, except for
keep-alive, the type id byte. -/
def Message.sendPreamble (m : Message) : List Nat :=
  match m with
  | .keepAlive => u32be 0
  | _ => u32be m.len ++ [m.msgId.getD 0]

/-- `Message::send`: the bytes written to the stream. -/
def Message.send (m : Message) : List Nat :=
  m.sendPreamble ++
    match m with
    | .keepAlive | .choke | .unchoke | .interested | .notInterested => []
    | .haveMsg i => u32be i
    | .request i b l | .cancel i b l => u32be i ++ u32be b ++ u32be l
    | .bitField bits => asSlice bits
    | .piece i b v => u32be i ++ u32be b ++ v
    | .port p => u16be p

/-- `read_exact` of `n` bytes from a stream: fails at end-of-stream. -/
def readN (n : Nat) (s : List Nat) : Option (List Nat × List Nat) :=
  if n ≤ s.length then some (s.take n, s.drop n) else none

/-- `Message::validate`: the declared frame length must equal the
reconstructed message's length. -/
def Message.validate (m : Message) (expected : Nat) : Except PeerError Unit :=
  if m.len = expected then .ok () else .error (.wrongLength expected m.len)

/-- Body parsing of `Message::recv`, after the length prefix and id byte,
by type id. -/
def Message.recvBody (id length : Nat) (s : List Nat) :
    Except PeerError (Message × List Nat) :=
  match id with
  | 0 => .ok (.choke, s)
  | 1 => .ok (.unchoke, s)
  | 2 => .ok (.interested, s)
  | 3 => .ok (.notInterested, s)
  | 4 =>
    match readN 4 s with
    | none => .error .io
    | some (ib, s) => .ok (.haveMsg (beVal ib), s)
  | 5 =>
    if length < 2 then .error (.smallLength 2 length)
    else
      match readN (length - 1) s with
      | none => .error .io
      | some (bytes, s) => .ok (.bitField (unpackBits bytes), s)
  | 6 =>
    match readN 4 s with
    | none => .error .io
    | some (ib, s) =>
      match readN 4 s with
      | none => .error .io
      | some (bb, s) =>
        match readN 4 s with
        | none => .error .io
        | some (lb, s) => .ok (.request (beVal ib) (beVal bb) (beVal lb), s)
  | 7 =>
    match readN 4 s with
    | none => .error .io
    | some (ib, s) =>
      match readN 4 s with
      | none => .error .io
      | some (bb, s) =>
        if length < 10 then .error (.smallLength 10 length)
        else .ok (.piece (beVal ib) (beVal bb) (s.take (length - 9)), s.drop (length - 9))
  | 8 =>
    match readN 4 s with
    | none => .error .io
    | some (ib, s) =>
      match readN 4 s with
      | none => .error .io
      | some (bb, s) =>
        match readN 4 s with
        | none => .error .io
        | some (lb, s) => .ok (.cancel (beVal ib) (beVal bb) (beVal lb), s)
  | 9 =>
    match readN 2 s with
    | none => .error .io
    | some (pb, s) => .ok (.port (beVal pb), s)
  | _ => .error (.invalid id)

/-- `Message::recv`: length prefix, keep-alive special case, id dispatch,
final length validation. -/
def Message.recv (s : List Nat) : Except PeerError (Message × List Nat) :=
  match readN 4 s with
  | none => .error .io
  | some (lb, s) =>
    let length := beVal lb
    if length = 0 then .ok (.keepAlive, s)
    else
      match s with
      | [] => .error .io
      | id :: rest =>
        match Message.recvBody id length rest with
        | .error e => .error e
        | .ok (m, rest) =>
          match m.validate length with
          | .error e => .error e
          | .ok _ => .ok (m, rest)

/-- Zero-pad a bit sequence to a whole number of bytes. -/
def padBits (bits : List Bool) : List Bool :=
  bits ++ List.replicate (8 * ((bits.length + 7) / 8) - bits.length) false

/-- The value a message re-parses to: itself, except that a bit-field is
zero-padded to a whole number of bytes. -/
def padMsg : Message → Message
  | .bitField bits => .bitField (padBits bits)
  | m => m

/-- Well-formedness of a message value: numeric fields fit their wire
integer types (as the Rust `u32`/`u16` fields guarantee), the piece
payload is non-empty and the bit-field is non-empty. -/
def Message.wf : Message → Prop
  | .haveMsg i => i < 4294967296
  | .request i b l => i < 4294967296 ∧ b < 4294967296 ∧ l < 4294967296
  | .cancel i b l => i < 4294967296 ∧ b < 4294967296 ∧ l < 4294967296
  | .bitField bits => bits ≠ [] ∧ (bits.length + 7) / 8 + 1 < 4294967296
  | .piece i b v => i < 4294967296 ∧ b < 4294967296 ∧ v ≠ [] ∧ 9 + v.length < 4294967296
  | .port p => p < 65536
  | _ => True

/-! ## Handshake receive (`Handshake::recv`, `src/torrent/peer.rs`) -/

/-- `read_u8`: one byte from the stream, failing at end-of-stream. -/
def readU8 (s : List Nat) : Option (Nat × List Nat) :=
  match s with
  | [] => none
  | b :: r => some (b, r)

/-- `Handshake::recv` over a byte stream.  `none` models a panic: the
reads of the length-prefix byte and of the protocol name are
`unwrap`ped in the source.  The eight reserved bytes are skipped with
`io::copy` over a `take(8)` reader, which consumes at most eight bytes
and does not fail at end-of-stream. -/
def Handshake.recv (info_hash client_id : List Nat) (s : List Nat) : Option Bool :=
  match readU8 s with
  | none => none
  | some (pstrLen, s) =>
    match readN pstrLen s with
    | none => none
    | some (_, s) =>
      let s := s.drop 8
      match readN 20 s with
      | none => some false
      | some (sent, s) =>
        if sent ≠ info_hash then some false
        else
          match readN 20 s with
          | none => some false
          | some (pid, _) => if client_id = pid then some false else some true

/-! ## Sender-side chunk service (`src/torrent/connection/sender.rs`) -/

/-- The sender's queued outgoing `Piece` record. -/
structure PieceMsg where
  index : Nat
  start : Nat
  length : Nat
  data : List Nat
deriving DecidableEq, Repr

/-- `Piece::new`: `none` models the panic of a failed `assert!`
(`begin < data.len()` and `begin + length <= data.len()`). -/
def PieceMsg.new (index start length : Nat) (data : List Nat) : Option PieceMsg :=
  if start < data.length ∧ start + length ≤ data.length then
    some ⟨index, start, length, data⟩
  else none

/-- `impl Into<Message> for Piece`.  The whole-piece fast path forwards
the buffer.  On the general path the source copies into
`Vec::with_capacity(length)` — a vector of length zero — with
`copy_from_slice`, which panics (`none`) unless the requested length is
zero. -/
def PieceMsg.intoMessage (p : PieceMsg) : Option Message :=
  if p.data.length = p.length ∧ p.start = 0 then
    some (.piece p.index p.start p.data)
  else if p.length = 0 then
    some (.piece p.index p.start [])
  else none

/-- Outcome of `Sender::handle_send_chunk`: a sender error, a panic
further down in `Piece::new`, or a successfully queued piece. -/
inductive ChunkOutcome where
  | err
  | panicked
  | enq (p : PieceMsg)
deriving DecidableEq, Repr

/-- `Sender::handle_send_chunk`: bounds validation, store lookup, queueing
of the `Piece` record. -/
def handle_send_chunk (mi : Metainfo) (storeGet : Nat → Option (List Nat))
    (index start length : Nat) : ChunkOutcome :=
  if mi.num_pieces ≤ index ∨ mi.get_piece_size index < start + length then .err
  else
    match storeGet index with
    | none => .err
    | some v =>
      match PieceMsg.new index start length v with
      | none => .panicked
      | some p => .enq p

/-! ## Piece store (`src/torrent/storage.rs`) -/

/-- Association-list lookup (model of `HashMap::get`). -/
def alookup {α : Type} (m : List (String × α)) (id : String) : Option α :=
  match m with
  | [] => none
  | (k, v) :: r => if k = id then some v else alookup r id

/-- In-place update of the first entry for a key (model of the mutation
through `HashMap::get_mut`). -/
def aupdate {α : Type} (m : List (String × α)) (id : String) (v : α) :
    List (String × α) :=
  match m with
  | [] => []
  | (k, w) :: r => if k = id then (k, v) :: r else (k, w) :: aupdate r id v

/-- `HashSet::insert` through `HashMap::get_mut`, creating the entry when
the key is absent. -/
def addToSet (m : List (String × List Nat)) (id : String) (i : Nat) :
    List (String × List Nat) :=
  match m with
  | [] => [(id, [i])]
  | (k, v) :: r =>
    if k = id then (k, if i ∈ v then v else v ++ [i]) :: r
    else (k, v) :: addToSet r id i

/-- `HashSet::remove` through `HashMap::get_mut`; no-op when the key is
absent. -/
def removeFromSet (m : List (String × List Nat)) (id : String) (i : Nat) :
    List (String × List Nat) :=
  match m with
  | [] => []
  | (k, v) :: r =>
    if k = id then (k, v.erase i) :: r else (k, v) :: removeFromSet r id i

/-- `HashMap::remove` (the returned value is read via `alookup`). -/
def removeKey {α : Type} (m : List (String × α)) (id : String) : List (String × α) :=
  m.filter (fun e => e.1 ≠ id)

/-- Status of one piece slot (`Option<PieceStatus>` in the source; `none`
is Absent). -/
inductive PieceStatus where
  | requested (id : String)
  | downloaded (data : List Nat)
deriving DecidableEq, Repr

/-- The shared piece store: status slots, per-peer in-progress sets, and
the completion counter.  The broadcast handler list and stdout cursor
are excluded collaborators. -/
structure PieceStore where
  data : List (Option PieceStatus)
  inprogress : List (String × List Nat)
  left : Nat
deriving DecidableEq, Repr

/-- `PieceStore::new` for `P` pieces: all slots Absent, `left = P`. -/
def PieceStore.new (P : Nat) : PieceStore := ⟨List.replicate P none, [], P⟩

/-- `PieceStore::as_bitvec`. -/
def PieceStore.as_bitvec (s : PieceStore) (includeRequested : Bool) : List Bool :=
  s.data.map (fun v =>
    match v with
    | none => false
    | some (.requested _) => includeRequested
    | some (.downloaded _) => true)

/-- `PieceStore::check_if_needed`. -/
def PieceStore.check_if_needed (s : PieceStore) (index : Nat) : Bool :=
  (s.data.getD index none).isNone

/-- `PieceStore::get`. -/
def PieceStore.get (s : PieceStore) (index : Nat) : Option (List Nat) :=
  match s.data.getD index none with
  | some (.downloaded v) => some v
  | _ => none

/-- `PieceStore::mark` (private; reached through `request_pieces`). -/
def PieceStore.mark (s : PieceStore) (id : String) (index : Nat) : PieceStore :=
  { s with inprogress := addToSet s.inprogress id index,
           data := s.data.set index (some (.requested id)) }

/-- `PieceStore::store`: slot becomes Downloaded, the caller's
in-progress set drops the index, `left` is decremented. -/
def PieceStore.store (s : PieceStore) (id : String) (index : Nat)
    (piece : List Nat) : PieceStore :=
  { s with data := s.data.set index (some (.downloaded piece)),
           inprogress := removeFromSet s.inprogress id index,
           left := s.left - 1 }

/-- `PieceStore::clear_requests`: every slot Requested by `id` reverts to
Absent and the in-progress entry is dropped. -/
def PieceStore.clear_requests (s : PieceStore) (id : String) : PieceStore :=
  match alookup s.inprogress id with
  | none => s
  | some hs =>
    { s with inprogress := removeKey s.inprogress id,
             data := hs.foldl (fun d i =>
               match d.getD i none with
               | some (.requested x) => if x = id then d.set i none else d
               | _ => d) s.data }

/-- Selector input (`selection::State`). -/
structure SelState where
  required : List Bool
  available : List Bool
deriving DecidableEq, Repr

/-- Elementwise OR (`availability |= as_bitvec(false)`). -/
def bvOr (a b : List Bool) : List Bool := a.zipWith or b

/-- Elementwise NOT (`!as_bitvec(true)`). -/
def bvNot (a : List Bool) : List Bool := a.map not

/-- `PieceStore::request_pieces` with the selector passed as a function:
build the selector state, delegate, mark every returned index, report
`none` on an empty selection (the `Err(())` case). -/
def PieceStore.request_pieces (s : PieceStore) (id : String)
    (availability : List Bool) (sel : SelState → Nat → List Nat) (n : Nat) :
    PieceStore × Option (List Nat) :=
  let availability := bvOr availability (s.as_bitvec false)
  let v := sel ⟨bvNot (s.as_bitvec true), availability⟩ n
  if v = [] then (s, none)
  else (v.foldl (fun st i => st.mark id i) s, some v)

/-- `PieceStore::bootstrap` (successful read): every slot Downloaded,
`left = 0`. -/
def PieceStore.bootstrap (s : PieceStore) (payload : Nat → List Nat) : PieceStore :=
  { s with data := (List.range s.data.length).map (fun i => some (.downloaded (payload i))),
           left := 0 }

/-- A selector only returns indices inside the required set — true of
every selector implementation in the repository, which filter by
`state.required`. -/
def selRequired (sel : SelState → Nat → List Nat) : Prop :=
  ∀ st n i, i ∈ sel st n → i < st.required.length ∧ st.required.getD i false = true

/-- `Inorder::request_pieces`: intersect availability with the required
set and take the first `n` set indices in order. -/
def Inorder.request_pieces (st : SelState) (n : Nat) : List Nat :=
  let avail := st.available.zipWith and st.required
  ((List.range avail.length).filter (fun i => avail.getD i false)).take n

/-! ## Store-reachable states for the two invariant claims -/

/-- States reachable by `new`, `request_pieces` (with a selector that
respects the required set), `clear_requests`, `store` on a
not-yet-Downloaded in-range index, and `bootstrap`. -/
inductive ReachD : PieceStore → Prop where
  | new (P : Nat) : ReachD (PieceStore.new P)
  | request (s : PieceStore) (id : String) (availability : List Bool)
      (sel : SelState → Nat → List Nat) (n : Nat) :
      selRequired sel → ReachD s →
      ReachD (s.request_pieces id availability sel n).1
  | clear (s : PieceStore) (id : String) : ReachD s → ReachD (s.clear_requests id)
  | store (s : PieceStore) (id : String) (index : Nat) (piece : List Nat) :
      index < s.data.length →
      (∀ v, s.data.getD index none ≠ some (.downloaded v)) →
      ReachD s → ReachD (s.store id index piece)
  | bootstrap (s : PieceStore) (payload : Nat → List Nat) :
      ReachD s → ReachD (s.bootstrap payload)

/-- States reachable when, additionally, `store` is only invoked on an
index that is Absent or Requested by the calling peer itself. -/
inductive ReachR : PieceStore → Prop where
  | new (P : Nat) : ReachR (PieceStore.new P)
  | request (s : PieceStore) (id : String) (availability : List Bool)
      (sel : SelState → Nat → List Nat) (n : Nat) :
      selRequired sel → ReachR s →
      ReachR (s.request_pieces id availability sel n).1
  | clear (s : PieceStore) (id : String) : ReachR s → ReachR (s.clear_requests id)
  | store (s : PieceStore) (id : String) (index : Nat) (piece : List Nat) :
      index < s.data.length →
      (s.data.getD index none = none ∨ s.data.getD index none = some (.requested id)) →
      ReachR s → ReachR (s.store id index piece)

/-- Number of slots whose status is not Downloaded. -/
def countNotDownloaded (d : List (Option PieceStatus)) : Nat :=
  (d.filter (fun v =>
    match v with
    | some (.downloaded _) => false
    | _ => true)).length

/-- The in-progress set recorded for a peer. -/
def inProg (s : PieceStore) (p : String) : List Nat :=
  (alookup s.inprogress p).getD []

/-- The in-progress table matches the status array: a peer's recorded set
holds exactly the indices Requested by that peer. -/
def StoreInv (s : PieceStore) : Prop :=
  ∀ p i, i ∈ inProg s p ↔ s.data.getD i none = some (.requested p)

/-- Every recorded in-progress set is duplicate-free (as a `HashSet`
is). -/
def StoreWf (s : PieceStore) : Prop :=
  ∀ p, (inProg s p).Nodup

/-! ## Per-connection metrics and snapshots
(`src/torrent/connection/mod.rs`) -/

/-- The four-boolean connection state record. -/
structure ConnState where
  client_choked : Bool
  client_interested : Bool
  peer_choked : Bool
  peer_interested : Bool
deriving DecidableEq, Repr

/-- The per-connection accumulators as the source keeps them
(`num_downloaded`, `num_uploaded`). -/
structure Metrics where
  downloaded : Nat
  uploaded : Nat
deriving DecidableEq, Repr

/-- The choker-owned snapshot of one connection. -/
structure Snapshot where
  downloaded : Nat
  uploaded : Nat
  availability : List Bool
  state : ConnState
deriving DecidableEq, Repr

/-- `Connection::update_snapshot`: copy both accumulators (and the
availability and state) into the snapshot and reset the accumulators to
zero.  Returns the new metrics and the new snapshot. -/
def Connection.update_snapshot (m : Metrics) (availability : List Bool)
    (state : ConnState) : Metrics × Snapshot :=
  (⟨0, 0⟩, ⟨m.downloaded, m.uploaded, availability, state⟩)

/-! ## Receiver piece handling (`Receiver::piece`) -/

/-- Nat-keyed association lookup (model of the `HashMap<u32, _>` piece
buffer). -/
def nlookup {α : Type} (m : List (Nat × α)) (k : Nat) : Option α :=
  match m with
  | [] => none
  | (k', v) :: r => if k' = k then some v else nlookup r k

/-- Nat-keyed in-place update of the first entry. -/
def nupdate {α : Type} (m : List (Nat × α)) (k : Nat) (v : α) : List (Nat × α) :=
  match m with
  | [] => []
  | (k', w) :: r => if k' = k then (k', v) :: r else (k', w) :: nupdate r k v

/-- Receiver state relevant to piece assembly: the per-index builder
buffer and the downloaded counter. -/
structure ReceiverSt where
  piece_buffer : List (Nat × PieceBuilder)
  num_downloaded : Nat
deriving DecidableEq, Repr

/-- Errors of `Receiver::piece`. -/
inductive ReceiverError where
  | invalidIndex (i : Nat)
  | invalidPiece (e : PieceBuilderError)
deriving DecidableEq, Repr

/-- `Receiver::piece`: bounds check, already-downloaded check, purge of
completed builders, routing to the per-index builder, and the counter
increment on completion.  `storeBv` is `store.as_bitvec(false)`; the
second component of a successful result is the payload handed to
`store.store`. -/
def Receiver.piece (mi : Metainfo) (storeBv : List Bool) (rst : ReceiverSt)
    (index start : Nat) (data : List Nat) :
    Except ReceiverError (ReceiverSt × Option (List Nat)) :=
  if mi.num_pieces ≤ index then .error (.invalidIndex index)
  else if storeBv.getD index false then .error (.invalidIndex index)
  else
    let buf := rst.piece_buffer.filter (fun kv => !(storeBv.getD kv.1 false))
    let buf :=
      match nlookup buf index with
      | some _ => buf
      | none => buf ++ [(index, PieceBuilder.new mi index)]
    match nlookup buf index with
    | none => .error (.invalidIndex index)
    | some pb =>
      match pb.add ⟨start, data⟩ with
      | .error e => .error (.invalidPiece e)
      | .ok (pb', some v) =>
        .ok (⟨nupdate buf index pb', rst.num_downloaded + 1⟩, some v)
      | .ok (pb', none) =>
        .ok (⟨nupdate buf index pb', rst.num_downloaded⟩, none)

/-- The sender's piece-transmission state: the outgoing piece queue, the
upload counter, and the bytes written to the socket. -/
structure SenderSt where
  pieces : List PieceMsg
  num_uploaded : Nat
  out : List Nat
deriving DecidableEq, Repr

/-- One iteration of the sender main loop's piece-sending step
(`self.pieces.pop_front()` followed by `self.send(piece.into())`).
`none` models a panic inside the `Into` conversion. -/
def Sender.sendPieceStep (s : SenderSt) : Option SenderSt :=
  match s.pieces with
  | [] => some s
  | p :: rest =>
    match p.intoMessage with
    | none => none
    | some m => some ⟨rest, s.num_uploaded, s.out ++ m.send⟩

/-! ## Choking controller, download tick (`Choke::download`,
`src/torrent/choking.rs`) -/

/-- The per-connection data the download tick reads from a snapshot. -/
structure ConnSnap where
  downloaded : Nat
  state : ConnState
deriving DecidableEq, Repr

/-- Stable descending sort by snapshot downloaded count
(`sort_by_key(|c| Reverse(c.snapshot.downloaded))`). -/
def sortDesc (l : List ConnSnap) : List ConnSnap :=
  List.insertionSort (fun a b => b.downloaded ≤ a.downloaded) l

/-- Indices (into the sorted list) of the `downloaders` set: first four
positions whose peer has not choked us and is interested. -/
def downloadersIdx (sorted : List ConnSnap) : List Nat :=
  ((sorted.enum.filter
      (fun ic => !ic.2.state.peer_choked && ic.2.state.peer_interested)).take 4).map
    Prod.fst

/-- `min().unwrap_or(0)`. -/
def minList : List Nat → Nat
  | [] => 0
  | x :: xs => xs.foldl Nat.min x

/-- The minimum downloaded count over the downloaders set. -/
def downloaderThreshold (sorted : List ConnSnap) : Nat :=
  minList ((downloadersIdx sorted).map
    (fun i => (((sorted.get? i).map ConnSnap.downloaded).getD 0)))

/-- Indices of the further-unchoked (auxiliary) set: peer not choking us,
peer not interested, and rate above the threshold (or threshold zero). -/
def unchokedIdx (sorted : List ConnSnap) (thr : Nat) : List Nat :=
  (sorted.enum.filter
    (fun ic => !ic.2.state.peer_choked && !ic.2.state.peer_interested &&
      (decide (thr < ic.2.downloaded) || decide (thr = 0)))).map Prod.fst

/-- The choke/unchoke command issued to each connection of the download
tick's main loop, paired with the connection, in sorted order: `some b`
is a `Choke(b)` command, `none` no command. -/
def downloadActions (conns : List ConnSnap) : List (ConnSnap × Option Bool) :=
  let sorted := sortDesc conns
  let ds := downloadersIdx sorted
  let us := unchokedIdx sorted (downloaderThreshold sorted)
  sorted.enum.map (fun ic =>
    (ic.2,
      if ic.1 ∈ ds ∨ ic.1 ∈ us then
        if ic.2.state.client_choked then some false else none
      else if !ic.2.state.client_choked then some true else none))

/-- The command sent to the optimistic-unchoke connection (held outside
the main list): unchoke it iff it is currently choked. -/
def optimisticUnchokeAction (c : ConnSnap) : Option Bool :=
  if c.state.client_choked then some false else none

/-- The download tick as the claim words it: identical to
`downloadActions` except that the preferred set is filtered by
"currently unchoked-by-us (the client is not choking them) and
interested", i.e. on `client_choked` instead of `peer_choked`. -/
def claimPreferredIdx (sorted : List ConnSnap) : List Nat :=
  ((sorted.enum.filter
      (fun ic => !ic.2.state.client_choked && ic.2.state.peer_interested)).take 4).map
    Prod.fst

/-- Threshold induced by the claim-worded preferred set. -/
def claimThreshold (sorted : List ConnSnap) : Nat :=
  minList ((claimPreferredIdx sorted).map
    (fun i => (((sorted.get? i).map ConnSnap.downloaded).getD 0)))

/-- Action assignment under the claim's wording of the preferred set. -/
def claimDownloadActions (conns : List ConnSnap) : List (ConnSnap × Option Bool) :=
  let sorted := sortDesc conns
  let ds := claimPreferredIdx sorted
  let us := unchokedIdx sorted (claimThreshold sorted)
  sorted.enum.map (fun ic =>
    (ic.2,
      if ic.1 ∈ ds ∨ ic.1 ∈ us then
        if ic.2.state.client_choked then some false else none
      else if !ic.2.state.client_choked then some true else none))

/-! ## Rarest-first selector (`Rare::request_pieces`,
`src/torrent/selection/rare.rs`) -/

/-- The selector's persistent state: per-peer last-seen availability and
the global rarity vector. -/
structure RareState where
  history : List (String × List Bool)
  rarity : List Nat
deriving DecidableEq, Repr

/-- `Rare::update_rarity`: lazily size the rarity vector, then increment
the count of every set bit (`zip` leaves entries beyond the bit vector
untouched). -/
def updateRarity (rarity : List Nat) (bv : List Bool) : List Nat :=
  let base := if rarity.isEmpty then List.replicate bv.length 0 else rarity
  (base.zipWith (fun cnt b => if b then cnt + 1 else cnt) bv) ++ base.drop bv.length

/-- `Rare::request_pieces`, parameterised by the random shuffle applied
to the pieces tied at the boundary rarity.  Returns the updated selector
state and the selected indices. -/
def Rare.request_pieces (shuffle : List Nat → List Nat) (r : RareState)
    (id : String) (st : SelState) (n : Nat) : RareState × List Nat :=
  let r :=
    match alookup r.history id with
    | some hist =>
      { history := aupdate r.history id st.available,
        rarity := updateRarity r.rarity ((st.available.map not).zipWith and hist) }
    | none =>
      { history := (id, st.available) :: r.history,
        rarity := updateRarity r.rarity st.available }
  let v := (List.range st.required.length).filter (fun i => st.required.getD i false)
  if v.isEmpty then (r, v)
  else
    let v := List.insertionSort (fun i j => r.rarity.getD i 0 ≤ r.rarity.getD j 0) v
    let maxRarity := r.rarity.getD (v.getD (min n (v.length - 1)) 0) 0
    let ret := v.takeWhile (fun i => r.rarity.getD i 0 < maxRarity)
    let rest := v.drop ret.length
    (r, ret ++ (shuffle rest).take (n - ret.length))

/-! ## Helper lemmas: byte-level framing -/

theorem beVal_u32be (n : Nat) (h : n < 4294967296) : beVal (u32be n) = n := by
  simp [beVal, u32be, List.foldl]
  omega

theorem beVal_u16be (p : Nat) (h : p < 65536) : beVal (u16be p) = p := by
  simp [beVal, u16be, List.foldl]
  omega

theorem readN_exact (l r : List Nat) : readN l.length (l ++ r) = some (l, r) := by
  simp [readN]

theorem readN_u32 (n : Nat) (r : List Nat) :
    readN 4 (u32be n ++ r) = some (u32be n, r) := by
  simpa using readN_exact (u32be n) r

theorem readN_u32_nil (n : Nat) : readN 4 (u32be n) = some (u32be n, []) := by
  simpa using readN_u32 n []

theorem readN_u16_nil (p : Nat) : readN 2 (u16be p) = some (u16be p, []) := by
  simpa using readN_exact (u16be p) []

theorem readN_self (l : List Nat) : readN l.length l = some (l, []) := by
  simpa using readN_exact l []

/-- Receiving a non-keep-alive frame dispatches on the id byte and
validates the reconstructed length. -/
theorem recv_frame (L : Nat) (hL : L < 4294967296) (hL0 : L ≠ 0) (id : Nat)
    (body : List Nat) :
    Message.recv ((u32be L ++ [id]) ++ body) =
      match Message.recvBody id L body with
      | .error e => .error e
      | .ok (m, rest) =>
        match m.validate L with
        | .error e => .error e
        | .ok _ => .ok (m, rest) := by
  unfold Message.recv
  rw [List.append_assoc, readN_u32]
  simp [beVal_u32be L hL, hL0]

/-! ## Helper lemmas: bit packing -/

theorem unpackBits_cons (b : Nat) (bs : List Nat) :
    unpackBits (b :: bs) = bitsOfByte b ++ unpackBits bs := rfl

theorem bitsOfByte_packByte8 :
    ∀ (b0 b1 b2 b3 b4 b5 b6 b7 : Bool),
      bitsOfByte (packByte [b0, b1, b2, b3, b4, b5, b6, b7]) =
        [b0, b1, b2, b3, b4, b5, b6, b7] := by
  decide

theorem bitsOfByte_packByte_len (bs : List Bool) (h : bs.length = 8) :
    bitsOfByte (packByte bs) = bs := by
  rcases bs with _ | ⟨b0, _ | ⟨b1, _ | ⟨b2, _ | ⟨b3, _ | ⟨b4, _ | ⟨b5, _ | ⟨b6, _ | ⟨b7, t⟩⟩⟩⟩⟩⟩⟩⟩ <;>
    simp only [List.length_cons, List.length_nil] at h <;> try omega
  have ht : t = [] := List.length_eq_zero.mp (by omega)
  subst ht
  exact bitsOfByte_packByte8 b0 b1 b2 b3 b4 b5 b6 b7

theorem asSliceN_length : ∀ (n : Nat) (bits : List Bool), (asSliceN n bits).length = n := by
  intro n
  induction n with
  | zero => intro bits; rfl
  | succ n ih => intro bits; simp [asSliceN, ih]

theorem asSlice_length (bits : List Bool) :
    (asSlice bits).length = (bits.length + 7) / 8 := asSliceN_length _ _

theorem unpack_asSliceN :
    ∀ (n : Nat) (bits : List Bool), bits.length = 8 * n →
      unpackBits (asSliceN n bits) = bits := by
  intro n
  induction n with
  | zero =>
    intro bits h
    have hb : bits = [] := List.length_eq_zero.mp (by omega)
    subst hb; rfl
  | succ n ih =>
    intro bits h
    show unpackBits (packByte (bits.take 8) :: asSliceN n (bits.drop 8)) = bits
    rw [unpackBits_cons, bitsOfByte_packByte_len _ (by rw [List.length_take]; omega),
        ih _ (by rw [List.length_drop]; omega), List.take_append_drop]

theorem asSliceN_pad :
    ∀ (n : Nat) (bits : List Bool) (k : Nat),
      bits.length + k = 8 * n → 8 * n ≤ bits.length + 7 →
      asSliceN n (bits ++ List.replicate k false) = asSliceN n bits := by
  intro n
  induction n with
  | zero =>
    intro bits k h _
    have hk : k = 0 := by omega
    subst hk; rfl
  | succ n ih =>
    intro bits k h h2
    have hl : 8 * n + 1 ≤ bits.length := by omega
    show packByte ((bits ++ List.replicate k false).take 8) ::
           asSliceN n ((bits ++ List.replicate k false).drop 8) =
         packByte (bits.take 8) :: asSliceN n (bits.drop 8)
    rcases le_or_lt 8 bits.length with hge | hlt
    · rw [List.take_append_of_le_length hge, List.drop_append_of_le_length hge]
      rw [ih (bits.drop 8) k (by rw [List.length_drop]; omega)
            (by rw [List.length_drop]; omega)]
    · have hn : n = 0 := by omega
      subst hn
      have htot : (bits ++ List.replicate k false).length = 8 := by
        simp [List.length_append, List.length_replicate]; omega
      -- one block of exactly eight bits: both sides pack the same padded byte
      have hhead : packByte ((bits ++ List.replicate k false).take 8) = packByte (bits.take 8) := by
        rw [List.take_of_length_le (le_of_eq htot),
            List.take_of_length_le (by omega : bits.length ≤ 8)]
        unfold packByte
        rw [List.append_assoc, ← List.replicate_add]
        congr 2
        simp [List.length_append, List.length_replicate]
        omega
      rw [hhead]
      rfl

theorem unpack_asSlice (bits : List Bool) :
    unpackBits (asSlice bits) = padBits bits := by
  rcases eq_or_ne bits [] with hb | hb
  · subst hb; rfl
  · have hl : 1 ≤ bits.length := List.length_pos.mpr hb
    show unpackBits (asSliceN ((bits.length + 7) / 8) bits) = padBits bits
    rw [← asSliceN_pad ((bits.length + 7) / 8) bits
          (8 * ((bits.length + 7) / 8) - bits.length) (by omega) (by omega)]
    exact unpack_asSliceN _ _ (by simp [padBits, List.length_append, List.length_replicate]; omega)

/-- C2 (counterexample): the round-trip claim fails as stated.  A `Piece`
message with empty payload serialises to a frame of length 9, which
`Message::recv` rejects with a small-length error (the parser requires
length ≥ 10), and a `BitField` with an empty bit vector serialises to a
frame of length 1, rejected against the minimum of 2.  Neither re-parses
to an equal message. -/
theorem message_roundtrip_cex :
    Message.recv (Message.send (.piece 2 0 [])) = .error (.smallLength 10 9) ∧
    Message.recv (Message.send (.bitField [])) = .error (.smallLength 2 1) := by
  constructor <;> rfl

/-- C2 (amended): serialising any of the eleven message kinds and
re-parsing the bytes yields an equal message — a `BitField` comes back
zero-padded to a whole number of bytes — provided the `Piece` payload
and the `BitField` bit vector are non-empty (and the numeric fields fit
the wire integer widths, as the Rust `u32`/`u16` field types already
guarantee). -/
theorem message_roundtrip (m : Message) (h : m.wf) :
    Message.recv (Message.send m) = .ok (padMsg m, []) := by
  cases m with
  | keepAlive => rfl
  | choke => rfl
  | unchoke => rfl
  | interested => rfl
  | notInterested => rfl
  | haveMsg i =>
    show Message.recv ((u32be 5 ++ [4]) ++ u32be i) = .ok (.haveMsg i, [])
    rw [recv_frame 5 (by norm_num) (by norm_num) 4 (u32be i)]
    simp [Message.recvBody, readN_u32_nil, Message.validate, Message.len,
      beVal_u32be i h]
  | request i b l =>
    show Message.recv ((u32be 13 ++ [6]) ++ (u32be i ++ (u32be b ++ u32be l))) =
      .ok (.request i b l, [])
    rw [recv_frame 13 (by norm_num) (by norm_num) 6 _]
    simp [Message.recvBody, readN_u32, readN_u32_nil, Message.validate, Message.len,
      beVal_u32be i h.1, beVal_u32be b h.2.1, beVal_u32be l h.2.2]
  | cancel i b l =>
    show Message.recv ((u32be 13 ++ [8]) ++ (u32be i ++ (u32be b ++ u32be l))) =
      .ok (.cancel i b l, [])
    rw [recv_frame 13 (by norm_num) (by norm_num) 8 _]
    simp [Message.recvBody, readN_u32, readN_u32_nil, Message.validate, Message.len,
      beVal_u32be i h.1, beVal_u32be b h.2.1, beVal_u32be l h.2.2]
  | port p =>
    show Message.recv ((u32be 3 ++ [9]) ++ u16be p) = .ok (.port p, [])
    rw [recv_frame 3 (by norm_num) (by norm_num) 9 _]
    simp [Message.recvBody, readN_u16_nil, Message.validate, Message.len,
      beVal_u16be p h]
  | piece i b v =>
    obtain ⟨hi, hb, hv, hlen⟩ := h
    have h9 : Message.len (.piece i b v) = 9 + v.length := by
      simp [Message.len, w32, Nat.mod_eq_of_lt hlen]
    have hsend : Message.send (.piece i b v) =
        (u32be (9 + v.length) ++ [7]) ++ (u32be i ++ (u32be b ++ v)) := by
      simp [Message.send, Message.sendPreamble, Message.msgId, h9]
    have hvl : 1 ≤ v.length := List.length_pos.mpr hv
    rw [hsend, recv_frame (9 + v.length) hlen (by omega) 7 _]
    simp only [Message.recvBody, readN_u32]
    rw [if_neg (by omega)]
    simp [Message.validate, h9, beVal_u32be i hi, beVal_u32be b hb, padMsg]
  | bitField bits =>
    obtain ⟨hb, hlen⟩ := h
    have hS : (asSlice bits).length = (bits.length + 7) / 8 := asSlice_length bits
    have hS1 : 1 ≤ (asSlice bits).length := by rw [hS]; have := List.length_pos.mpr hb; omega
    have hlen32 : (asSlice bits).length + 1 < 4294967296 := by rw [hS]; omega
    have hL : Message.len (.bitField bits) = (asSlice bits).length + 1 := by
      simp [Message.len, w32, Nat.mod_eq_of_lt hlen32]
    have hsend : Message.send (.bitField bits) =
        (u32be ((asSlice bits).length + 1) ++ [5]) ++ asSlice bits := by
      simp [Message.send, Message.sendPreamble, Message.msgId, hL]
    have hval : Message.len (.bitField (padBits bits)) = (asSlice bits).length + 1 := by
      have hpl : (padBits bits).length = 8 * ((bits.length + 7) / 8) := by
        simp [padBits, List.length_append, List.length_replicate]; omega
      have hsl : (asSlice (padBits bits)).length = (asSlice bits).length := by
        rw [asSlice_length, asSlice_length, hpl]; omega
      simp [Message.len, w32, hsl, Nat.mod_eq_of_lt hlen32]
    rw [hsend, recv_frame ((asSlice bits).length + 1) hlen32 (by omega) 5 _]
    simp only [Message.recvBody]
    rw [if_neg (by omega), Nat.add_sub_cancel, readN_self]
    simp [unpack_asSlice, Message.validate, hval, padMsg]

/-- C2 (witness): the round-trip theorem at a concrete four-bit
bit-field, which re-parses padded to eight bits. -/
theorem message_roundtrip_witness :
    Message.recv (Message.send (.bitField [false, false, false, true])) =
      .ok (padMsg (.bitField [false, false, false, true]), []) :=
  message_roundtrip (.bitField [false, false, false, true]) (by constructor <;> decide)

set_option maxRecDepth 100000 in
/-- C1 (counterexample): the claim fails on the single-full-chunk fast
path.  For a one-piece metainfo whose published digest is twenty zero
bytes, feeding the fresh assembler a single full-piece chunk `[1]`
returns `Complete([1])` although the SHA-1 of `[1]` does not equal the
published digest — the fast path returns the payload without any digest
check. -/
theorem pieceBuilder_fastPath_skips_digest_cex :
    (PieceBuilder.new ⟨1, List.replicate 20 0, 1⟩ 0).add ⟨0, [1]⟩ =
      .ok (PieceBuilder.new ⟨1, List.replicate 20 0, 1⟩ 0, some [1]) ∧
    Metainfo.verify_piece ⟨1, List.replicate 20 0, 1⟩ 0 [1] = false := by
  constructor
  · rfl
  · decide

/-- C1 (amended): outside the first-full-chunk fast path (which returns
the chunk as Complete without any digest check), `add` returns
`Complete(payload)` exactly when the chunk passes the size and offset
guards, the remaining byte count reaches zero, the payload is the merge
of all stored chunks into the zero-initialized buffer, and the SHA-1 of
that assembled payload equals the metainfo digest for the piece
index. -/
theorem pieceBuilder_add_complete_iff (pb : PieceBuilder) (c : Chunk)
    (pb' : PieceBuilder) (v : List Nat)
    (hfast : ¬(pb.size = pb.remaining ∧ c.data.length = pb.remaining)) :
    pb.add c = .ok (pb', some v) ↔
      (c.data.length ≤ pb.remaining ∧ c.start < pb.size ∧
       c.data.length + c.start ≤ pb.size ∧ pb.remaining = c.data.length ∧
       pb' = { pb with remaining := pb.remaining - c.data.length,
                       chunks := pb.chunks ++ [c] } ∧
       v = pb'.assemble ∧
       sha1Bytes v = pb.metainfo.digestFor pb.index) := by
  simp only [PieceBuilder.add]
  split_ifs with h1 h2 h3 h4 h5
  · constructor
    · intro h; exact absurd h (by simp)
    · rintro ⟨ha, -⟩; omega
  · constructor
    · intro h; exact absurd h (by simp)
    · rintro ⟨-, hb, -⟩; omega
  · constructor
    · intro h; exact absurd h (by simp)
    · rintro ⟨-, -, hc, -⟩; omega
  · constructor
    · intro h
      obtain ⟨hpb, hv⟩ :
          ({ pb with remaining := pb.remaining - c.data.length,
                     chunks := pb.chunks ++ [c] } : PieceBuilder) = pb' ∧
          PieceBuilder.assemble { pb with remaining := pb.remaining - c.data.length,
                                          chunks := pb.chunks ++ [c] } = v := by
        simpa using h
      refine ⟨by omega, by omega, by omega, by omega, hpb.symm, ?_, ?_⟩
      · rw [← hpb, ← hv]
      · rw [← hv]
        exact beq_iff_eq.mp h5
    · rintro ⟨-, -, -, -, rfl, rfl, -⟩
      rfl
  · constructor
    · intro h; exact absurd h (by simp)
    · rintro ⟨-, -, -, -, rfl, rfl, hsha⟩
      exact absurd (by simp [Metainfo.verify_piece, hsha]) h5
  · constructor
    · intro h; exact absurd h (by simp)
    · rintro ⟨-, -, -, hr, -⟩; omega

set_option maxRecDepth 100000 in
/-- C1 (witness): the amended theorem at a concrete two-chunk assembly of
the payload `"ab"`, whose published digest is the true SHA-1 of
`"ab"`. -/
theorem pieceBuilder_add_complete_iff_witness :
    (⟨⟨2, [218, 35, 97, 78, 2, 70, 154, 13, 124, 123, 209, 189, 171, 92, 156, 71,
          75, 25, 4, 220], 2⟩, 0, 1, 2, [⟨0, [97]⟩]⟩ : PieceBuilder).add ⟨1, [98]⟩ =
      .ok (⟨⟨2, [218, 35, 97, 78, 2, 70, 154, 13, 124, 123, 209, 189, 171, 92, 156,
               71, 75, 25, 4, 220], 2⟩, 0, 0, 2, [⟨0, [97]⟩, ⟨1, [98]⟩]⟩,
           some [97, 98]) :=
  (pieceBuilder_add_complete_iff _ _ _ _ (by decide)).mpr
    ⟨by decide, by decide, by decide, by decide, by decide, by decide, by decide⟩

/-- C3 (code bug): `handle_send_chunk` validates and queues the strict
sub-range request `SendChunk(0, 0, 1)` against a stored two-byte piece
`[10, 20]`, but converting the queued record to a wire message panics:
the general path copies into a `Vec::with_capacity(length)` — whose
length is zero — with `copy_from_slice`.  The claimed `Piece` message
carrying exactly bytes `[begin, begin+length)` is never produced. -/
theorem sendChunk_strict_subrange_panics :
    handle_send_chunk ⟨2, List.replicate 20 0, 2⟩
        (fun i => if i = 0 then some [10, 20] else none) 0 0 1 =
      .enq ⟨0, 0, 1, [10, 20]⟩ ∧
    PieceMsg.intoMessage ⟨0, 0, 1, [10, 20]⟩ = none := by
  constructor <;> rfl

/-- C10 (counterexample): a zero-length chunk whose begin equals the
piece size passes `handle_send_chunk`'s validation (`begin + length ≤
piece_size`) but violates the first assertion of `Piece::new`
(`begin < data.len()`): the call panics instead of queueing. -/
theorem pieceMsg_assert_zero_len_at_end_cex :
    handle_send_chunk ⟨1, List.replicate 20 0, 1⟩
        (fun i => if i = 0 then some [7] else none) 0 1 0 = .panicked ∧
    PieceMsg.new 0 1 0 [7] = none := by
  constructor <;> rfl

/-- C10 (amended): for every `SendChunk(i, b, l)` that passes validation
with the strengthened bound `b < piece_size(i)` (rather than only
`b + l ≤ piece_size(i)`), and piece `i` stored as a buffer of
`piece_size(i)` bytes, both assertions of `Piece::new` hold and the
piece is queued.  The case `b = piece_size(i)` with `l = 0`, allowed by
the validation, fails the first assertion. -/
theorem sendChunk_validated_asserts_hold (mi : Metainfo)
    (storeGet : Nat → Option (List Nat)) (i b l : Nat) (v : List Nat)
    (hi : i < mi.num_pieces) (hbl : b + l ≤ mi.get_piece_size i)
    (hb : b < mi.get_piece_size i) (hv : storeGet i = some v)
    (hlen : v.length = mi.get_piece_size i) :
    handle_send_chunk mi storeGet i b l = .enq ⟨i, b, l, v⟩ := by
  simp only [handle_send_chunk, PieceMsg.new, hv]
  rw [if_neg (by omega), if_pos (show b < v.length ∧ b + l ≤ v.length by omega)]

/-- C10 (witness): the amended theorem serving a strict sub-range of a
stored two-byte piece. -/
theorem sendChunk_validated_asserts_hold_witness :
    handle_send_chunk ⟨2, List.replicate 20 0, 2⟩
        (fun i => if i = 0 then some [10, 20] else none) 0 1 1 =
      .enq ⟨0, 1, 1, [10, 20]⟩ :=
  sendChunk_validated_asserts_hold _ _ 0 1 1 [10, 20]
    (by decide) (by decide) (by decide) (by decide) (by decide)

/-- C9: with the rarest-first selector, after snapshots from peer `a`
holding pieces `{0, 1}` and peer `b` holding `{0}`, the rarity vector is
`[2, 1]`; a subsequent `request_pieces` call with `n = 1` and both
pieces required returns exactly `[1]`, for every outcome of the
tie-break shuffles (quantified as arbitrary functions). -/
theorem rare_tie_break_scenario (s1 s2 s3 : List Nat → List Nat) :
    ((Rare.request_pieces s2
        ((Rare.request_pieces s1 ⟨[], []⟩ "a" ⟨[true, true], [true, true]⟩ 1).1)
        "b" ⟨[true, true], [true, false]⟩ 1).1).rarity = [2, 1] ∧
    (Rare.request_pieces s3
        ((Rare.request_pieces s2
            ((Rare.request_pieces s1 ⟨[], []⟩ "a" ⟨[true, true], [true, true]⟩ 1).1)
            "b" ⟨[true, true], [true, false]⟩ 1).1)
        "a" ⟨[true, true], [true, true]⟩ 1).2 = [1] := by
  constructor <;> rfl

/-- C5 (counterexample): after `mark("p", 0)`, a `store` call by a
different peer `"q"` on the same index leaves index 0 in `"p"`'s
in-progress set although the slot is now Downloaded, so the set no
longer equals the set of indices Requested by `"p"`. -/
theorem inprogress_cross_peer_store_cex :
    inProg (((PieceStore.new 1).mark "p" 0).store "q" 0 [7]) "p" = [0] ∧
    (((PieceStore.new 1).mark "p" 0).store "q" 0 [7]).data.getD 0 none ≠
      some (.requested "p") := by
  constructor
  · rfl
  · decide

/-- C6 (counterexample): an I/O error (end of stream) while reading the
very first handshake byte makes `Handshake::recv` panic — the read is
`unwrap`ped — rather than return `false`. -/
theorem handshake_panics_on_empty_stream_cex :
    Handshake.recv (List.replicate 20 0) (List.replicate 20 1) [] = none := rfl

/-- C7 (counterexample): completing a two-byte piece raises the
`num_downloaded` accumulator by one — the source counts pieces, not
bytes — and transmitting a two-byte chunk leaves `num_uploaded` at zero:
no code path ever increments it. -/
theorem metrics_counts_pieces_cex :
    Receiver.piece ⟨2, List.replicate 20 0, 2⟩ [false] ⟨[], 0⟩ 0 0 [5, 6] =
      .ok (⟨[(0, PieceBuilder.new ⟨2, List.replicate 20 0, 2⟩ 0)], 1⟩, some [5, 6]) ∧
    (1 : Nat) ≠ 0 + 2 ∧
    Sender.sendPieceStep ⟨[⟨0, 0, 2, [5, 6]⟩], 0, []⟩ =
      some ⟨[], 0, Message.send (.piece 0 0 [5, 6])⟩ := by
  refine ⟨rfl, by decide, rfl⟩

/-- C8 (counterexample): a single connection that the client is choking
(`client_choked`), whose peer is interested and is not choking the
client.  Under the claim's wording (preferred set filtered by "the
client is not choking them") no command is sent; the code filters on
`peer_choked`, puts the connection in the preferred set, and sends
`Choke(false)`. -/
theorem choker_preferred_filter_cex :
    downloadActions [⟨5, ⟨true, false, false, true⟩⟩] =
      [(⟨5, ⟨true, false, false, true⟩⟩, some false)] ∧
    claimDownloadActions [⟨5, ⟨true, false, false, true⟩⟩] =
      [(⟨5, ⟨true, false, false, true⟩⟩, none)] := by
  constructor <;> rfl

/-- C6 (amended): once the length-prefix byte and the `pstrlen` bytes of
protocol name have been read successfully, `Handshake::recv` always
terminates normally, and it returns `true` exactly when the twenty
info-hash bytes are fully available and equal the expected hash, the
twenty peer-id bytes are fully available, and the peer-id differs from
the client's own id; in every other case — short read at the info-hash
or the peer-id (an I/O error), an info-hash mismatch, or a self-connect
— it returns `false`. -/
theorem handshake_recv_after_name (ih cid : List Nat) (pstrLen : Nat)
    (pstr rest : List Nat) (hp : pstr.length = pstrLen) :
    Handshake.recv ih cid (pstrLen :: (pstr ++ rest)) =
      some (decide (20 ≤ (rest.drop 8).length) &&
            decide ((rest.drop 8).take 20 = ih) &&
            decide (20 ≤ ((rest.drop 8).drop 20).length) &&
            decide (¬(cid = ((rest.drop 8).drop 20).take 20))) := by
  subst hp
  simp only [Handshake.recv, readU8, readN_exact]
  by_cases hA : 20 ≤ (rest.drop 8).length
  · simp only [show readN 20 (rest.drop 8) =
        some ((rest.drop 8).take 20, (rest.drop 8).drop 20) from by
      unfold readN; rw [if_pos hA]]
    by_cases hB : (rest.drop 8).take 20 = ih
    · rw [if_neg (not_not_intro hB)]
      by_cases hC : 20 ≤ ((rest.drop 8).drop 20).length
      · simp only [show readN 20 ((rest.drop 8).drop 20) =
            some (((rest.drop 8).drop 20).take 20, ((rest.drop 8).drop 20).drop 20) from by
          unfold readN; rw [if_pos hC]]
        by_cases hD : cid = ((rest.drop 8).drop 20).take 20
        · rw [if_pos hD]; simp_all
        · rw [if_neg hD]; simp_all
      · simp only [show readN 20 ((rest.drop 8).drop 20) = none from by
          unfold readN; rw [if_neg hC]]
        simp_all
    · rw [if_pos hB]
      simp_all
  · simp only [show readN 20 (rest.drop 8) = none from by
      unfold readN; rw [if_neg hA]]
    simp_all

/-- C6 (witness): the amended theorem on a complete well-formed inbound
handshake with matching info-hash and a foreign peer-id, accepted as
`true`. -/
theorem handshake_recv_after_name_witness :
    Handshake.recv (List.replicate 20 65) (List.replicate 20 66)
      (19 :: (List.replicate 19 80 ++
        (List.replicate 8 0 ++ (List.replicate 20 65 ++ List.replicate 20 67)))) =
      some true := by
  rw [handshake_recv_after_name (List.replicate 20 65) (List.replicate 20 66) 19
        (List.replicate 19 80)
        (List.replicate 8 0 ++ (List.replicate 20 65 ++ List.replicate 20 67))
        (by decide)]
  decide

/-- C7 (amended): completing a piece raises the connection's downloaded
accumulator by exactly one (a piece count, independent of the byte
size); transmitting a queued Piece message leaves the uploaded
accumulator unchanged (no code path increments it); and
`Connection::update_snapshot` copies both accumulators into the
snapshot and resets them to zero. -/
theorem metrics_accumulators :
    (∀ (mi : Metainfo) (bv : List Bool) (rst : ReceiverSt) (i b : Nat)
       (d : List Nat) (st' : ReceiverSt) (v : List Nat),
        Receiver.piece mi bv rst i b d = .ok (st', some v) →
        st'.num_downloaded = rst.num_downloaded + 1) ∧
    (∀ s s' : SenderSt, Sender.sendPieceStep s = some s' →
        s'.num_uploaded = s.num_uploaded) ∧
    (∀ (m : Metrics) (av : List Bool) (cs : ConnState),
        (Connection.update_snapshot m av cs).1 = ⟨0, 0⟩ ∧
        (Connection.update_snapshot m av cs).2.downloaded = m.downloaded ∧
        (Connection.update_snapshot m av cs).2.uploaded = m.uploaded) := by
  refine ⟨?_, ?_, fun m av cs => ⟨rfl, rfl, rfl⟩⟩
  · intro mi bv rst i b d st' v h
    simp only [Receiver.piece] at h
    split_ifs at h
    split at h
    · simp at h
    · split at h
      · simp at h
      · simp only [Except.ok.injEq, Prod.mk.injEq] at h
        rw [← h.1]
      · simp at h
  · intro s s' h
    obtain ⟨ps, nu, outb⟩ := s
    rcases ps with _ | ⟨p, rest⟩
    · simp only [Sender.sendPieceStep] at h
      cases h; rfl
    · simp only [Sender.sendPieceStep] at h
      rcases him : p.intoMessage with _ | m
      · rw [him] at h; simp at h
      · rw [him] at h
        simp only [Option.some.injEq] at h
        rw [← h]

/-- C7 (witness): the amended theorem applied to a concrete two-byte
piece completion (counter goes from 0 to 1), a concrete two-byte chunk
transmission (uploaded stays 0), and a concrete snapshot update. -/
theorem metrics_accumulators_witness :
    (⟨[(0, PieceBuilder.new ⟨2, List.replicate 20 0, 2⟩ 0)], 1⟩ : ReceiverSt).num_downloaded =
      (⟨[], 0⟩ : ReceiverSt).num_downloaded + 1 ∧
    (⟨[], 0, Message.send (.piece 0 0 [5, 6])⟩ : SenderSt).num_uploaded =
      (⟨[⟨0, 0, 2, [5, 6]⟩], 0, []⟩ : SenderSt).num_uploaded ∧
    ((Connection.update_snapshot ⟨3, 4⟩ [true] ⟨true, false, true, false⟩).1 = ⟨0, 0⟩ ∧
     (Connection.update_snapshot ⟨3, 4⟩ [true] ⟨true, false, true, false⟩).2.downloaded = 3 ∧
     (Connection.update_snapshot ⟨3, 4⟩ [true] ⟨true, false, true, false⟩).2.uploaded = 4) :=
  ⟨metrics_accumulators.1 ⟨2, List.replicate 20 0, 2⟩ [false] ⟨[], 0⟩ 0 0 [5, 6] _ [5, 6] rfl,
   metrics_accumulators.2.1 ⟨[⟨0, 0, 2, [5, 6]⟩], 0, []⟩ _ rfl,
   metrics_accumulators.2.2 ⟨3, 4⟩ [true] ⟨true, false, true, false⟩⟩

/-! ## Helper lemmas: slot updates and the not-Downloaded count -/

/-- Whether a slot counts as not Downloaded. -/
def notDL : Option PieceStatus → Bool
  | some (.downloaded _) => false
  | _ => true

theorem countNotDownloaded_eq (d : List (Option PieceStatus)) :
    countNotDownloaded d = (d.filter notDL).length := by
  unfold countNotDownloaded notDL
  rfl

theorem getD_oob {α : Type} (d : List α) (i : Nat) (dflt : α) (h : d.length ≤ i) :
    d.getD i dflt = dflt := by
  rw [List.getD_eq_getElem?_getD, List.getElem?_eq_none h]
  rfl

theorem getD_set_self {α : Type} (d : List α) (i : Nat) (x dflt : α)
    (h : i < d.length) : (d.set i x).getD i dflt = x := by
  rw [List.getD_eq_getElem?_getD, List.getElem?_set, if_pos rfl, if_pos h]
  rfl

theorem getD_set_other {α : Type} (d : List α) (i j : Nat) (x dflt : α)
    (h : i ≠ j) : (d.set i x).getD j dflt = d.getD j dflt := by
  rw [List.getD_eq_getElem?_getD, List.getElem?_set, if_neg h,
    ← List.getD_eq_getElem?_getD]

theorem set_oob {α : Type} (d : List α) (i : Nat) (x : α) (h : d.length ≤ i) :
    d.set i x = d := List.set_eq_of_length_le h

theorem count_set_preserve (d : List (Option PieceStatus)) (i : Nat)
    (x : Option PieceStatus) (hsame : notDL (d.getD i none) = notDL x) :
    countNotDownloaded (d.set i x) = countNotDownloaded d := by
  induction d generalizing i with
  | nil => rfl
  | cons a d ih =>
    cases i with
    | zero =>
      simp only [List.getD_cons_zero] at hsame
      simp only [List.set_cons_zero, countNotDownloaded_eq, List.filter_cons]
      rw [← hsame]
      cases notDL a <;> simp
    | succ i =>
      simp only [List.getD_cons_succ] at hsame
      simp only [List.set_cons_succ, countNotDownloaded_eq, List.filter_cons]
      have := ih i hsame
      rw [countNotDownloaded_eq, countNotDownloaded_eq] at this
      cases notDL a <;> simp [this]

theorem count_set_down (d : List (Option PieceStatus)) (i : Nat)
    (x : Option PieceStatus) (h : i < d.length)
    (hold : notDL (d.getD i none) = true) (hx : notDL x = false) :
    countNotDownloaded d = countNotDownloaded (d.set i x) + 1 := by
  induction d generalizing i with
  | nil => simp at h
  | cons a d ih =>
    cases i with
    | zero =>
      simp only [List.getD_cons_zero] at hold
      simp only [List.set_cons_zero, countNotDownloaded_eq, List.filter_cons, hold, hx]
      simp
    | succ i =>
      simp only [List.getD_cons_succ] at hold
      simp only [List.set_cons_succ, countNotDownloaded_eq, List.filter_cons]
      have := ih i (by simpa using h) hold
      rw [countNotDownloaded_eq, countNotDownloaded_eq] at this
      cases notDL a <;> simp [this]

/-- Marking never touches `left`, preserves the slot count, the data
length, and the not-Downloaded flag of every slot that was not
Downloaded. -/
theorem foldl_mark_invariant (id : String) :
    ∀ (picks : List Nat) (st : PieceStore),
      (∀ i ∈ picks, notDL (st.data.getD i none) = true) →
      (picks.foldl (fun t i => t.mark id i) st).left = st.left ∧
      (picks.foldl (fun t i => t.mark id i) st).data.length = st.data.length ∧
      countNotDownloaded (picks.foldl (fun t i => t.mark id i) st).data =
        countNotDownloaded st.data ∧
      (∀ j, notDL ((picks.foldl (fun t i => t.mark id i) st).data.getD j none) =
        notDL (st.data.getD j none)) := by
  intro picks
  induction picks with
  | nil => intro st h; exact ⟨rfl, rfl, rfl, fun j => rfl⟩
  | cons i rest ih =>
    intro st h
    have hi := h i (by simp)
    have hstep :
        (st.mark id i).left = st.left ∧
        (st.mark id i).data.length = st.data.length ∧
        countNotDownloaded (st.mark id i).data = countNotDownloaded st.data ∧
        (∀ j, notDL ((st.mark id i).data.getD j none) = notDL (st.data.getD j none)) := by
      refine ⟨rfl, List.length_set _ _ _, ?_, ?_⟩
      · exact count_set_preserve _ _ _ (by rw [hi]; rfl)
      · intro j
        by_cases hij : i = j
        · subst hij
          rcases lt_or_le i st.data.length with hlt | hle
          · rw [show (st.mark id i).data = st.data.set i (some (.requested id)) from rfl,
              getD_set_self _ _ _ _ hlt, hi]
            rfl
          · rw [show (st.mark id i).data = st.data.set i (some (.requested id)) from rfl,
              set_oob _ _ _ hle]
        · rw [show (st.mark id i).data = st.data.set i (some (.requested id)) from rfl,
            getD_set_other _ _ _ _ _ hij]
    have hrest : ∀ k ∈ rest, notDL ((st.mark id i).data.getD k none) = true := by
      intro k hk
      rw [hstep.2.2.2 k]
      exact h k (by simp [hk])
    obtain ⟨l1, l2, l3, l4⟩ := ih (st.mark id i) hrest
    exact ⟨l1.trans hstep.1, l2.trans hstep.2.1, l3.trans hstep.2.2.1,
      fun j => (l4 j).trans (hstep.2.2.2 j)⟩

/-- One step of the clearing fold keeps the data length. -/
theorem clear_step_length (id : String) (d : List (Option PieceStatus)) (i : Nat) :
    (match d.getD i none with
      | some (.requested x) => if x = id then d.set i none else d
      | _ => d).length = d.length := by
  split
  · split_ifs
    · exact List.length_set _ _ _
    · rfl
  · rfl

/-- One step of the clearing fold keeps the not-Downloaded count. -/
theorem clear_step_count (id : String) (d : List (Option PieceStatus)) (i : Nat) :
    countNotDownloaded (match d.getD i none with
      | some (.requested x) => if x = id then d.set i none else d
      | _ => d) = countNotDownloaded d := by
  split
  next _ x heq =>
    split_ifs
    · exact count_set_preserve _ _ _ (by rw [heq]; rfl)
    · rfl
  next => rfl

/-- One step of the clearing fold turns slot `i` into Absent exactly when
it was Requested by `id`, and leaves every other slot unchanged. -/
theorem clear_step_slot (id : String) (d : List (Option PieceStatus)) (i j : Nat) :
    (match d.getD i none with
      | some (.requested x) => if x = id then d.set i none else d
      | _ => d).getD j none =
      if j = i ∧ d.getD j none = some (.requested id) then none
      else d.getD j none := by
  split
  next _ x heq =>
    by_cases hx : x = id
    · subst hx
      rw [if_pos rfl]
      by_cases hj : j = i
      · subst hj
        have hlt : j < d.length := by
          by_contra hle
          rw [getD_oob _ _ _ (by omega)] at heq
          exact Option.noConfusion heq
        rw [getD_set_self _ _ _ _ hlt, if_pos ⟨rfl, heq⟩]
      · rw [getD_set_other _ _ _ _ _ (fun he => hj he.symm), if_neg (by tauto)]
    · rw [if_neg hx]
      by_cases hj : j = i
      · subst hj
        rw [if_neg (by rw [heq]; rintro ⟨-, hc⟩; injection hc with h1; injection h1 with h2; exact hx h2)]
      · rw [if_neg (by tauto)]
  next _ hne =>
    by_cases hj : j = i
    · subst hj
      rw [if_neg (by rintro ⟨-, hc⟩; exact hne _ hc)]
    · rw [if_neg (by tauto)]

/-- The clearing fold of `clear_requests` preserves the slot count and
length, and only turns Requested-by-`id` slots into Absent. -/
theorem clear_fold_slots (id : String) :
    ∀ (hs : List Nat) (d : List (Option PieceStatus)),
      (hs.foldl (fun d i =>
        match d.getD i none with
        | some (.requested x) => if x = id then d.set i none else d
        | _ => d) d).length = d.length ∧
      countNotDownloaded (hs.foldl (fun d i =>
        match d.getD i none with
        | some (.requested x) => if x = id then d.set i none else d
        | _ => d) d) = countNotDownloaded d ∧
      (∀ j, (hs.foldl (fun d i =>
        match d.getD i none with
        | some (.requested x) => if x = id then d.set i none else d
        | _ => d) d).getD j none =
          if j ∈ hs ∧ d.getD j none = some (.requested id) then none
          else d.getD j none) := by
  intro hs
  induction hs with
  | nil =>
    intro d
    refine ⟨rfl, rfl, fun j => ?_⟩
    simp
  | cons i rest ih =>
    intro d
    rw [List.foldl_cons]
    obtain ⟨r1, r2, r3⟩ := ih (match d.getD i none with
      | some (.requested x) => if x = id then d.set i none else d
      | _ => d)
    refine ⟨r1.trans (clear_step_length id d i), r2.trans (clear_step_count id d i),
      fun j => ?_⟩
    rw [r3 j]
    simp only [clear_step_slot id d i]
    simp only [List.mem_cons]
    by_cases h1 : j = i ∧ d.getD j none = some (.requested id)
    · rw [if_pos h1, if_neg (by simp), if_pos ⟨Or.inl h1.1, h1.2⟩]
    · rw [if_neg h1]
      by_cases h2 : j ∈ rest ∧ d.getD j none = some (.requested id)
      · rw [if_pos h2, if_pos ⟨Or.inr h2.1, h2.2⟩]
      · rw [if_neg h2, if_neg (by
          rintro ⟨hor, hreq⟩
          rcases hor with he | hr
          · exact h1 ⟨he, hreq⟩
          · exact h2 ⟨hr, hreq⟩)]

/-- The `required` bitmap handed to the selector is set exactly on
in-range Absent slots. -/
theorem required_getD (s : PieceStore) (i : Nat) :
    (bvNot (s.as_bitvec true)).getD i false = true ↔
      (i < s.data.length ∧ s.data.getD i none = none) := by
  unfold bvNot PieceStore.as_bitvec
  rw [List.getD_eq_getElem?_getD, List.getElem?_map, List.getElem?_map,
    List.getD_eq_getElem?_getD]
  rcases hx : s.data[i]? with _ | v
  · rw [List.getElem?_eq_none_iff] at hx
    simp
    omega
  · have hlt : i < s.data.length := by
      by_contra hge
      rw [List.getElem?_eq_none (by omega)] at hx
      exact Option.noConfusion hx
    simp only [Option.map_some, Option.getD_some, hx]
    rcases v with _ | st
    · simp [hlt]
    · rcases st with p | w <;> simp [hlt]

theorem required_length (s : PieceStore) :
    (bvNot (s.as_bitvec true)).length = s.data.length := by
  simp [bvNot, PieceStore.as_bitvec]

theorem count_replicate_none (P : Nat) :
    countNotDownloaded (List.replicate P none) = P := by
  rw [countNotDownloaded_eq, List.filter_replicate]
  simp [notDL]

theorem count_all_downloaded (n : Nat) (pl : Nat → List Nat) :
    countNotDownloaded ((List.range n).map
      (fun i => some (.downloaded (pl i)))) = 0 := by
  rw [countNotDownloaded_eq]
  rw [List.filter_eq_nil_iff.mpr]
  · rfl
  · intro a ha
    obtain ⟨i, -, rfl⟩ := List.mem_map.mp ha
    simp [notDL]

/-- C4: for every store state reachable by `new`, `request_pieces`,
`clear_requests`, `store` on a not-yet-Downloaded index, and
`bootstrap`, the counter `left` equals the number of slots whose status
is not Downloaded, and every slot is in exactly one of the three
states Absent, Requested, Downloaded. -/
theorem pieceStore_left_invariant (s : PieceStore) (h : ReachD s) :
    s.left = countNotDownloaded s.data ∧
    ∀ i, i < s.data.length →
      (s.data.getD i none = none ∨
       (∃ p, s.data.getD i none = some (.requested p)) ∨
       (∃ v, s.data.getD i none = some (.downloaded v))) := by
  constructor
  · induction h with
    | new P => simp [PieceStore.new, count_replicate_none]
    | request s id avail sel n hsel hr ih =>
      by_cases hv : sel ⟨bvNot (s.as_bitvec true), bvOr avail (s.as_bitvec false)⟩ n = []
      · simpa [PieceStore.request_pieces, hv] using ih
      · have hpicks : ∀ i ∈ sel ⟨bvNot (s.as_bitvec true), bvOr avail (s.as_bitvec false)⟩ n,
            notDL (s.data.getD i none) = true := by
          intro i hi
          obtain ⟨-, hreq⟩ := hsel _ n i hi
          obtain ⟨-, hnone⟩ := (required_getD s i).mp hreq
          rw [hnone]
          rfl
        obtain ⟨l1, -, l3, -⟩ := foldl_mark_invariant id _ s hpicks
        simp only [PieceStore.request_pieces, hv, if_neg]
        simpa [hv] using (l1.trans ih).trans l3.symm
    | clear s id hr ih =>
      rcases halk : alookup s.inprogress id with _ | hs'
      · simpa [PieceStore.clear_requests, halk] using ih
      · obtain ⟨-, c2, -⟩ := clear_fold_slots id hs' s.data
        simp only [PieceStore.clear_requests, halk]
        exact ih.trans c2.symm
    | store s id index piece hlt hnd hr ih =>
      have hold : notDL (s.data.getD index none) = true := by
        rcases hx : s.data.getD index none with _ | st
        · rfl
        · rcases st with p | w
          · rfl
          · exact absurd hx (hnd w)
      have hdown := count_set_down s.data index (some (.downloaded piece)) hlt hold rfl
      show s.left - 1 = countNotDownloaded (s.data.set index (some (.downloaded piece)))
      omega
    | bootstrap s pl hr ih =>
      show (0 : Nat) =
        countNotDownloaded ((List.range s.data.length).map
          (fun i => some (.downloaded (pl i))))
      rw [count_all_downloaded]
  · intro i hi
    rcases s.data.getD i none with _ | st
    · exact Or.inl rfl
    · rcases st with p | v
      · exact Or.inr (Or.inl ⟨p, rfl⟩)
      · exact Or.inr (Or.inr ⟨v, rfl⟩)

/-- C4 (witness): the invariant theorem at the concrete state reached by
creating a two-piece store and storing piece 0. -/
theorem pieceStore_left_invariant_witness :
    ((PieceStore.new 2).store "p" 0 [1, 2]).left =
      countNotDownloaded ((PieceStore.new 2).store "p" 0 [1, 2]).data ∧
    ((PieceStore.new 2).store "p" 0 [1, 2]).left = 1 :=
  ⟨(pieceStore_left_invariant _
      (ReachD.store _ "p" 0 [1, 2] (by decide)
        (fun v hveq => by
          rw [show (PieceStore.new 2).data.getD 0 none = none from rfl] at hveq
          exact Option.noConfusion hveq)
        (ReachD.new 2))).1,
   rfl⟩

/-! ## Helper lemmas: the in-progress association table -/

theorem alookup_addToSet_self (m : List (String × List Nat)) (id : String) (i : Nat) :
    alookup (addToSet m id i) id = some (match alookup m id with
      | none => [i]
      | some v => if i ∈ v then v else v ++ [i]) := by
  induction m with
  | nil => simp [addToSet, alookup]
  | cons e r ih =>
    obtain ⟨k, v⟩ := e
    by_cases hk : k = id
    · subst hk
      simp [addToSet, alookup]
    · simp [addToSet, alookup, hk, ih]

theorem alookup_addToSet_other (m : List (String × List Nat)) (id p : String)
    (i : Nat) (hp : p ≠ id) :
    alookup (addToSet m id i) p = alookup m p := by
  induction m with
  | nil => simp [addToSet, alookup, Ne.symm hp]
  | cons e r ih =>
    obtain ⟨k, v⟩ := e
    by_cases hk : k = id
    · subst hk
      simp [addToSet, alookup, Ne.symm hp]
    · by_cases hkp : k = p <;> simp [addToSet, alookup, hk, hkp, hp, ih]

theorem alookup_removeFromSet_self (m : List (String × List Nat)) (id : String)
    (i : Nat) :
    alookup (removeFromSet m id i) id = (alookup m id).map (fun v => v.erase i) := by
  induction m with
  | nil => rfl
  | cons e r ih =>
    obtain ⟨k, v⟩ := e
    by_cases hk : k = id
    · subst hk
      simp [removeFromSet, alookup]
    · simp [removeFromSet, alookup, hk, ih]

theorem alookup_removeFromSet_other (m : List (String × List Nat)) (id p : String)
    (i : Nat) (hp : p ≠ id) :
    alookup (removeFromSet m id i) p = alookup m p := by
  induction m with
  | nil => rfl
  | cons e r ih =>
    obtain ⟨k, v⟩ := e
    by_cases hk : k = id
    · subst hk
      simp [removeFromSet, alookup, Ne.symm hp]
    · by_cases hkp : k = p <;> simp [removeFromSet, alookup, hk, hkp, hp, ih]

theorem alookup_removeKey_self (m : List (String × α)) (id : String) :
    alookup (removeKey m id) id = none := by
  induction m with
  | nil => rfl
  | cons e r ih =>
    obtain ⟨k, v⟩ := e
    by_cases hk : k = id
    · have hstep : removeKey ((k, v) :: r) id = removeKey r id := by
        simp [removeKey, List.filter_cons, hk]
      rw [hstep, ih]
    · have hstep : removeKey ((k, v) :: r) id = (k, v) :: removeKey r id := by
        simp [removeKey, List.filter_cons, hk]
      rw [hstep]
      simp [alookup, hk, ih]

theorem alookup_removeKey_other (m : List (String × α)) (id p : String)
    (hp : p ≠ id) :
    alookup (removeKey m id) p = alookup m p := by
  induction m with
  | nil => rfl
  | cons e r ih =>
    obtain ⟨k, v⟩ := e
    by_cases hk : k = id
    · subst hk
      have hstep : removeKey ((k, v) :: r) k = removeKey r k := by
        simp [removeKey, List.filter_cons]
      rw [hstep, ih]
      simp [alookup, Ne.symm hp]
    · have hstep : removeKey ((k, v) :: r) id = (k, v) :: removeKey r id := by
        simp [removeKey, List.filter_cons, hk]
      rw [hstep]
      by_cases hkp : k = p
      · subst hkp
        simp [alookup]
      · simp [alookup, hkp, ih]

theorem inProg_mark_self (s : PieceStore) (id : String) (i : Nat) :
    inProg (s.mark id i) id =
      if i ∈ inProg s id then inProg s id else inProg s id ++ [i] := by
  show (alookup (addToSet s.inprogress id i) id).getD [] = _
  rw [alookup_addToSet_self]
  rcases halk : alookup s.inprogress id with _ | v <;> simp [inProg, halk]

theorem inProg_mark_other (s : PieceStore) (id p : String) (i : Nat) (hp : p ≠ id) :
    inProg (s.mark id i) p = inProg s p := by
  show (alookup (addToSet s.inprogress id i) p).getD [] = _
  rw [alookup_addToSet_other _ _ _ _ hp]
  rfl

theorem inProg_store_self (s : PieceStore) (id : String) (i : Nat) (piece : List Nat) :
    inProg (s.store id i piece) id = (inProg s id).erase i := by
  show (alookup (removeFromSet s.inprogress id i) id).getD [] = _
  rw [alookup_removeFromSet_self]
  rcases halk : alookup s.inprogress id with _ | v <;> simp [inProg, halk]

theorem inProg_store_other (s : PieceStore) (id p : String) (i : Nat)
    (piece : List Nat) (hp : p ≠ id) :
    inProg (s.store id i piece) p = inProg s p := by
  show (alookup (removeFromSet s.inprogress id i) p).getD [] = _
  rw [alookup_removeFromSet_other _ _ _ _ hp]
  rfl

theorem mem_ins_iff (v : List Nat) (i j : Nat) :
    (j ∈ (if i ∈ v then v else v ++ [i])) ↔ (j ∈ v ∨ j = i) := by
  split_ifs with h
  · constructor
    · exact Or.inl
    · rintro (hj | rfl)
      · exact hj
      · exact h
  · simp [List.mem_append]

/-! ## Helper lemmas: preservation of the in-progress invariant -/

theorem storeInvWf_new (P : Nat) :
    StoreInv (PieceStore.new P) ∧ StoreWf (PieceStore.new P) := by
  constructor
  · intro p i
    constructor
    · intro hi
      exact absurd hi (by simp [inProg, PieceStore.new, alookup])
    · intro hi
      rcases lt_or_le i P with hlt | hle
      · rw [show (PieceStore.new P).data.getD i none =
            (List.replicate P (none : Option PieceStatus)).getD i none from rfl,
          List.getD_eq_getElem?_getD, List.getElem?_replicate, if_pos hlt] at hi
        exact Option.noConfusion hi
      · rw [show (PieceStore.new P).data.getD i none =
            (List.replicate P (none : Option PieceStatus)).getD i none from rfl,
          getD_oob _ _ _ (by simpa using hle)] at hi
        exact Option.noConfusion hi
  · intro p
    simp [inProg, PieceStore.new, alookup]

theorem storeInvWf_mark (s : PieceStore) (id : String) (i : Nat)
    (hlt : i < s.data.length)
    (hslot : s.data.getD i none = none ∨
      s.data.getD i none = some (.requested id))
    (hInv : StoreInv s) (hWf : StoreWf s) :
    StoreInv (s.mark id i) ∧ StoreWf (s.mark id i) := by
  have hdata : (s.mark id i).data = s.data.set i (some (.requested id)) := rfl
  constructor
  · intro p j
    by_cases hp : p = id
    · subst hp
      rw [inProg_mark_self, mem_ins_iff]
      constructor
      · rintro (hj | rfl)
        · have hreq := (hInv p j).mp hj
          by_cases hji : j = i
          · subst hji
            rw [hdata, getD_set_self _ _ _ _ hlt]
          · rw [hdata, getD_set_other _ _ _ _ _ (fun he => hji he.symm)]
            exact hreq
        · rw [hdata, getD_set_self _ _ _ _ hlt]
      · intro hj
        by_cases hji : j = i
        · exact Or.inr hji
        · rw [hdata, getD_set_other _ _ _ _ _ (fun he => hji he.symm)] at hj
          exact Or.inl ((hInv p j).mpr hj)
    · rw [inProg_mark_other _ _ _ _ hp]
      constructor
      · intro hj
        have hreq := (hInv p j).mp hj
        by_cases hji : j = i
        · subst hji
          rcases hslot with hs0 | hs0 <;> rw [hs0] at hreq
          · exact Option.noConfusion hreq
          · injection hreq with h1
            injection h1 with h2
            exact absurd h2.symm hp
        · rw [hdata, getD_set_other _ _ _ _ _ (fun he => hji he.symm)]
          exact hreq
      · intro hj
        by_cases hji : j = i
        · subst hji
          rw [hdata, getD_set_self _ _ _ _ hlt] at hj
          injection hj with h1
          injection h1 with h2
          exact absurd h2.symm hp
        · rw [hdata, getD_set_other _ _ _ _ _ (fun he => hji he.symm)] at hj
          exact (hInv p j).mpr hj
  · intro p
    by_cases hp : p = id
    · subst hp
      rw [inProg_mark_self]
      split_ifs with hmem
      · exact hWf p
      · exact List.Nodup.append (hWf p) (List.nodup_singleton i)
          (by intro a ha hb; rw [List.mem_singleton] at hb; subst hb; exact hmem ha)
    · rw [inProg_mark_other _ _ _ _ hp]
      exact hWf p

theorem storeInvWf_store (s : PieceStore) (id : String) (i : Nat)
    (piece : List Nat) (hlt : i < s.data.length)
    (hslot : s.data.getD i none = none ∨
      s.data.getD i none = some (.requested id))
    (hInv : StoreInv s) (hWf : StoreWf s) :
    StoreInv (s.store id i piece) ∧ StoreWf (s.store id i piece) := by
  have hdata : (s.store id i piece).data = s.data.set i (some (.downloaded piece)) := rfl
  constructor
  · intro p j
    by_cases hp : p = id
    · subst hp
      rw [inProg_store_self, List.Nodup.mem_erase_iff (hWf p)]
      constructor
      · rintro ⟨hji, hj⟩
        rw [hdata, getD_set_other _ _ _ _ _ (fun he => hji he.symm)]
        exact (hInv p j).mp hj
      · intro hj
        by_cases hji : j = i
        · subst hji
          rw [hdata, getD_set_self _ _ _ _ hlt] at hj
          exact absurd hj (by simp)
        · rw [hdata, getD_set_other _ _ _ _ _ (fun he => hji he.symm)] at hj
          exact ⟨hji, (hInv p j).mpr hj⟩
    · rw [inProg_store_other _ _ _ _ _ hp]
      constructor
      · intro hj
        have hreq := (hInv p j).mp hj
        by_cases hji : j = i
        · subst hji
          rcases hslot with hs0 | hs0 <;> rw [hs0] at hreq
          · exact Option.noConfusion hreq
          · injection hreq with h1
            injection h1 with h2
            exact absurd h2.symm hp
        · rw [hdata, getD_set_other _ _ _ _ _ (fun he => hji he.symm)]
          exact hreq
      · intro hj
        by_cases hji : j = i
        · subst hji
          rw [hdata, getD_set_self _ _ _ _ hlt] at hj
          exact absurd hj (by simp)
        · rw [hdata, getD_set_other _ _ _ _ _ (fun he => hji he.symm)] at hj
          exact (hInv p j).mpr hj
  · intro p
    by_cases hp : p = id
    · subst hp
      rw [inProg_store_self]
      exact List.Nodup.erase i (hWf p)
    · rw [inProg_store_other _ _ _ _ _ hp]
      exact hWf p

theorem storeInvWf_clear (s : PieceStore) (id : String)
    (hInv : StoreInv s) (hWf : StoreWf s) :
    StoreInv (s.clear_requests id) ∧ StoreWf (s.clear_requests id) := by
  rcases halk : alookup s.inprogress id with _ | hs
  · rw [show s.clear_requests id = s from by unfold PieceStore.clear_requests; rw [halk]]
    exact ⟨hInv, hWf⟩
  · have hset : inProg s id = hs := by rw [inProg, halk]; rfl
    have hstr : s.clear_requests id =
        { s with inprogress := removeKey s.inprogress id,
                 data := hs.foldl (fun d i =>
                   match d.getD i none with
                   | some (.requested x) => if x = id then d.set i none else d
                   | _ => d) s.data } := by
      unfold PieceStore.clear_requests
      rw [halk]
    obtain ⟨-, -, hslots⟩ := clear_fold_slots id hs s.data
    constructor
    · intro p j
      by_cases hp : p = id
      · subst hp
        constructor
        · intro hj
          rw [show inProg (s.clear_requests p) p =
              (alookup (removeKey s.inprogress p) p).getD [] from by rw [hstr]; rfl,
            alookup_removeKey_self] at hj
          exact absurd hj (by simp)
        · intro hj
          rw [show (s.clear_requests p).data = hs.foldl (fun d i =>
              match d.getD i none with
              | some (.requested x) => if x = p then d.set i none else d
              | _ => d) s.data from by rw [hstr], hslots j] at hj
          by_cases hc : j ∈ hs ∧ s.data.getD j none = some (.requested p)
          · rw [if_pos hc] at hj
            exact Option.noConfusion hj
          · rw [if_neg hc] at hj
            have hmem : j ∈ inProg s p := (hInv p j).mpr hj
            rw [hset] at hmem
            exact absurd ⟨hmem, hj⟩ hc
      · rw [show inProg (s.clear_requests id) p =
            (alookup (removeKey s.inprogress id) p).getD [] from by rw [hstr]; rfl,
          alookup_removeKey_other _ _ _ hp,
          show (s.clear_requests id).data = hs.foldl (fun d i =>
              match d.getD i none with
              | some (.requested x) => if x = id then d.set i none else d
              | _ => d) s.data from by rw [hstr], hslots j]
        by_cases hc : j ∈ hs ∧ s.data.getD j none = some (.requested id)
        · rw [if_pos hc]
          constructor
          · intro hj
            have := (hInv p j).mp hj
            rw [hc.2] at this
            injection this with h1
            injection h1 with h2
            exact absurd h2.symm hp
          · intro hj
            exact Option.noConfusion hj
        · rw [if_neg hc]
          exact hInv p j
    · intro p
      by_cases hp : p = id
      · subst hp
        rw [show inProg (s.clear_requests p) p =
            (alookup (removeKey s.inprogress p) p).getD [] from by rw [hstr]; rfl,
          alookup_removeKey_self]
        exact List.nodup_nil
      · rw [show inProg (s.clear_requests id) p =
            (alookup (removeKey s.inprogress id) p).getD [] from by rw [hstr]; rfl,
          alookup_removeKey_other _ _ _ hp]
        exact hWf p

theorem foldl_mark_invwf (id : String) :
    ∀ (picks : List Nat) (st : PieceStore),
      (∀ i ∈ picks, i < st.data.length ∧
        (st.data.getD i none = none ∨ st.data.getD i none = some (.requested id))) →
      StoreInv st → StoreWf st →
      StoreInv (picks.foldl (fun t i => t.mark id i) st) ∧
      StoreWf (picks.foldl (fun t i => t.mark id i) st) := by
  intro picks
  induction picks with
  | nil => intro st h hI hW; exact ⟨hI, hW⟩
  | cons i rest ih =>
    intro st h hI hW
    obtain ⟨hlt, hslot⟩ := h i (by simp)
    obtain ⟨hI2, hW2⟩ := storeInvWf_mark st id i hlt hslot hI hW
    have hdata : (st.mark id i).data = st.data.set i (some (.requested id)) := rfl
    refine ih (st.mark id i) ?_ hI2 hW2
    intro k hk
    obtain ⟨hklt, hkslot⟩ := h k (by simp [hk])
    constructor
    · rw [hdata, List.length_set]
      exact hklt
    · by_cases hki : k = i
      · subst hki
        right
        rw [hdata, getD_set_self _ _ _ _ hlt]
      · rw [hdata, getD_set_other _ _ _ _ _ (fun he => hki he.symm)]
        exact hkslot

theorem storeInvWf_request (s : PieceStore) (id : String) (avail : List Bool)
    (sel : SelState → Nat → List Nat) (n : Nat) (hsel : selRequired sel)
    (hI : StoreInv s) (hW : StoreWf s) :
    StoreInv (s.request_pieces id avail sel n).1 ∧
    StoreWf (s.request_pieces id avail sel n).1 := by
  by_cases hv : sel ⟨bvNot (s.as_bitvec true), bvOr avail (s.as_bitvec false)⟩ n = []
  · simp only [PieceStore.request_pieces, hv, if_pos]
    exact ⟨hI, hW⟩
  · have hpicks : ∀ i ∈ sel ⟨bvNot (s.as_bitvec true), bvOr avail (s.as_bitvec false)⟩ n,
        i < s.data.length ∧
        (s.data.getD i none = none ∨ s.data.getD i none = some (.requested id)) := by
      intro i hi
      obtain ⟨-, hreq⟩ := hsel _ n i hi
      obtain ⟨hlt, hnone⟩ := (required_getD s i).mp hreq
      exact ⟨hlt, Or.inl hnone⟩
    have hfold := foldl_mark_invwf id _ s hpicks hI hW
    simp only [PieceStore.request_pieces, hv, if_neg]
    simpa [hv] using hfold

theorem reachR_invariant (s : PieceStore) (h : ReachR s) :
    StoreInv s ∧ StoreWf s := by
  induction h with
  | new P => exact storeInvWf_new P
  | request s id avail sel n hsel hr ih =>
    exact storeInvWf_request s id avail sel n hsel ih.1 ih.2
  | clear s id hr ih => exact storeInvWf_clear s id ih.1 ih.2
  | store s id index piece hlt hslot hr ih =>
    exact storeInvWf_store s id index piece hlt hslot ih.1 ih.2

/-- C5 (amended): for every store state reachable by `new`,
`request_pieces` (with a selector that only returns required indices, as
both shipped selectors do), `clear_requests`, and `store` — where each
`store` call's index is Absent or Requested by the calling peer itself —
the in-progress set recorded for every peer `p` equals exactly the set
of indices whose status is `Requested(p)`.  A `store` by a different
peer than the requester breaks the equality. -/
theorem inprogress_invariant_same_peer (s : PieceStore) (h : ReachR s)
    (p : String) (i : Nat) :
    i ∈ inProg s p ↔ s.data.getD i none = some (.requested p) :=
  (reachR_invariant s h).1 p i

/-- C5 (witness): the amended invariant at the concrete state reached by
a one-piece store after a `request_pieces` call that selects piece 0 for
peer `"p"`. -/
theorem inprogress_invariant_same_peer_witness :
    0 ∈ inProg (((PieceStore.new 1).request_pieces "p" [true]
        (fun st _ => if st.required.getD 0 false = true then [0] else []) 1).1) "p" ↔
      (((PieceStore.new 1).request_pieces "p" [true]
        (fun st _ => if st.required.getD 0 false = true then [0] else []) 1).1).data.getD 0 none =
        some (.requested "p") :=
  inprogress_invariant_same_peer _
    (ReachR.request _ "p" [true]
      (fun st _ => if st.required.getD 0 false = true then [0] else []) 1
      (by
        intro st n i hi
        change i ∈ (if st.required.getD 0 false = true then [0] else []) at hi
        by_cases hc : st.required.getD 0 false = true
        · rw [if_pos hc] at hi
          rw [List.mem_singleton] at hi
          subst hi
          refine ⟨?_, hc⟩
          by_contra hlen
          rw [getD_oob _ _ _ (by omega)] at hc
          exact Bool.noConfusion hc
        · rw [if_neg hc] at hi
          exact absurd hi (List.not_mem_nil i))
      (ReachR.new 1)) "p" 0

/-! ## Helper lemmas: the choker's index sets -/

instance : IsTotal ConnSnap (fun a b => b.downloaded ≤ a.downloaded) :=
  ⟨fun a b => le_total b.downloaded a.downloaded⟩

instance : IsTrans ConnSnap (fun a b => b.downloaded ≤ a.downloaded) :=
  ⟨fun _ _ _ hab hbc => le_trans hbc hab⟩

/-- Position `off + i` survives `enumFrom off`, a filter on the element,
a `take k` and a projection to indices exactly when the element at
position `i` passes the filter and fewer than `k` earlier positions
pass it. -/
theorem mem_take_filter_enumFrom {α : Type} (q : α → Bool) :
    ∀ (l : List α) (off k i : Nat),
      ((off + i) ∈ ((((List.enumFrom off l).filter (fun p => q p.2)).take k).map Prod.fst) ↔
        (∃ c, l[i]? = some c ∧ q c = true ∧ ((l.take i).filter q).length < k)) := by
  intro l
  induction l with
  | nil =>
    intro off k i
    simp
  | cons a l ih =>
    intro off k i
    rw [List.enumFrom_cons]
    by_cases hq : q a = true
    · rw [List.filter_cons_of_pos (by simpa using hq)]
      cases k with
      | zero => simp
      | succ k =>
        rw [List.take_succ_cons, List.map_cons]
        cases i with
        | zero =>
          constructor
          · intro _
            exact ⟨a, by simp, hq, by simp⟩
          · intro _
            simp
        | succ i =>
          rw [List.mem_cons]
          have hne : ¬(off + (i + 1) = off) := by omega
          rw [or_iff_right hne, show off + (i + 1) = (off + 1) + i from by omega,
            ih (off + 1) k i]
          constructor
          · rintro ⟨c, hc, hqc, hcnt⟩
            refine ⟨c, by simpa using hc, hqc, ?_⟩
            rw [List.take_succ_cons, List.filter_cons_of_pos (by simpa using hq),
              List.length_cons]
            omega
          · rintro ⟨c, hc, hqc, hcnt⟩
            refine ⟨c, by simpa using hc, hqc, ?_⟩
            rw [List.take_succ_cons, List.filter_cons_of_pos (by simpa using hq),
              List.length_cons] at hcnt
            omega
    · rw [List.filter_cons_of_neg (by simpa using hq)]
      cases i with
      | zero =>
        constructor
        · intro hmem
          exfalso
          rw [List.mem_map] at hmem
          obtain ⟨p, hp, hfst⟩ := hmem
          obtain ⟨pi, pc⟩ := p
          have hp2 := List.mem_of_mem_take hp
          have hp3 := (List.mem_filter.mp hp2).1
          have hge := (List.mem_enumFrom hp3).1
          simp only at hfst
          omega
        · rintro ⟨c, hc, hqc, -⟩
          rw [List.getElem?_cons_zero] at hc
          injection hc with hc
          subst hc
          exact absurd hqc hq
      | succ i =>
        rw [show off + (i + 1) = (off + 1) + i from by omega, ih (off + 1) k i]
        constructor
        · rintro ⟨c, hc, hqc, hcnt⟩
          refine ⟨c, by simpa using hc, hqc, ?_⟩
          rw [List.take_succ_cons, List.filter_cons_of_neg (by simpa using hq)]
          exact hcnt
        · rintro ⟨c, hc, hqc, hcnt⟩
          refine ⟨c, by simpa using hc, hqc, ?_⟩
          rw [List.take_succ_cons, List.filter_cons_of_neg (by simpa using hq)] at hcnt
          exact hcnt

theorem mem_downloadersIdx (sorted : List ConnSnap) (i : Nat) :
    i ∈ downloadersIdx sorted ↔
      ∃ c, sorted[i]? = some c ∧
        (!c.state.peer_choked && c.state.peer_interested) = true ∧
        ((sorted.take i).filter
          (fun x => !x.state.peer_choked && x.state.peer_interested)).length < 4 := by
  have h := mem_take_filter_enumFrom
    (fun x : ConnSnap => !x.state.peer_choked && x.state.peer_interested) sorted 0 4 i
  simpa [downloadersIdx, List.enum] using h

theorem mem_unchokedIdx (sorted : List ConnSnap) (thr i : Nat) :
    i ∈ unchokedIdx sorted thr ↔
      ∃ c, sorted[i]? = some c ∧
        (!c.state.peer_choked && !c.state.peer_interested &&
          (decide (thr < c.downloaded) || decide (thr = 0))) = true := by
  unfold unchokedIdx
  rw [List.mem_map]
  constructor
  · rintro ⟨p, hp, rfl⟩
    obtain ⟨hpe, hpq⟩ := List.mem_filter.mp hp
    obtain ⟨pi, pc⟩ := p
    rw [List.mk_mem_enum_iff_getElem?] at hpe
    exact ⟨pc, hpe, hpq⟩
  · rintro ⟨c, hc, hq⟩
    exact ⟨(i, c), List.mem_filter.mpr ⟨List.mk_mem_enum_iff_getElem?.mpr hc, hq⟩, rfl⟩

/-- C8 (amended): the download tick sorts the connections by snapshot
downloaded count descending (stably, as a permutation of the input); the
preferred set consists of the first four sorted positions whose peer is
NOT CHOKING THE CLIENT (`peer_choked` false) and whose peer is
interested; every connection in the preferred or auxiliary set that the
client is currently choking is sent `Choke(false)`, and every connection
outside both sets that the client is not choking is sent `Choke(true)`
(the optimistic-unchoke connection is held outside this list and only
ever receives `Choke(false)`). -/
theorem choker_download_actions (conns : List ConnSnap) (i : Nat) (c : ConnSnap)
    (h : (sortDesc conns)[i]? = some c) :
    (sortDesc conns).Perm conns ∧
    List.Sorted (fun a b : ConnSnap => b.downloaded ≤ a.downloaded) (sortDesc conns) ∧
    (downloadActions conns)[i]? = some (c,
      if ((!c.state.peer_choked && c.state.peer_interested) = true ∧
            (((sortDesc conns).take i).filter
              (fun x => !x.state.peer_choked && x.state.peer_interested)).length < 4)
         ∨ (!c.state.peer_choked && !c.state.peer_interested &&
             (decide (downloaderThreshold (sortDesc conns) < c.downloaded) ||
              decide (downloaderThreshold (sortDesc conns) = 0))) = true
      then (if c.state.client_choked = true then some false else none)
      else (if c.state.client_choked = true then none else some true)) := by
  refine ⟨List.perm_insertionSort _ conns, List.sorted_insertionSort _ conns, ?_⟩
  show (((sortDesc conns).enum.map _)[i]? : Option (ConnSnap × Option Bool)) = _
  rw [List.getElem?_map, List.getElem?_enum, h]
  simp only [Option.map_some']
  by_cases hcond : ((!c.state.peer_choked && c.state.peer_interested) = true ∧
      (((sortDesc conns).take i).filter
        (fun x => !x.state.peer_choked && x.state.peer_interested)).length < 4)
     ∨ (!c.state.peer_choked && !c.state.peer_interested &&
         (decide (downloaderThreshold (sortDesc conns) < c.downloaded) ||
          decide (downloaderThreshold (sortDesc conns) = 0))) = true
  · rw [if_pos hcond]
    have hmem : i ∈ downloadersIdx (sortDesc conns) ∨
        i ∈ unchokedIdx (sortDesc conns) (downloaderThreshold (sortDesc conns)) := by
      rcases hcond with ⟨he, hcnt⟩ | haux
      · exact Or.inl ((mem_downloadersIdx _ i).mpr ⟨c, h, he, hcnt⟩)
      · exact Or.inr ((mem_unchokedIdx _ _ i).mpr ⟨c, h, haux⟩)
    rw [if_pos hmem]
  · rw [if_neg hcond]
    have hmem : ¬(i ∈ downloadersIdx (sortDesc conns) ∨
        i ∈ unchokedIdx (sortDesc conns) (downloaderThreshold (sortDesc conns))) := by
      rintro (hd | hu)
      · obtain ⟨c2, hc2, he, hcnt⟩ := (mem_downloadersIdx _ i).mp hd
        rw [h] at hc2
        injection hc2 with hc2
        subst hc2
        exact hcond (Or.inl ⟨he, hcnt⟩)
      · obtain ⟨c2, hc2, haux⟩ := (mem_unchokedIdx _ _ i).mp hu
        rw [h] at hc2
        injection hc2 with hc2
        subst hc2
        exact hcond (Or.inr haux)
    rw [if_neg hmem]
    cases hcc : c.state.client_choked <;> simp [hcc]

/-- C8 (witness): the amended action theorem at a single connection whose
peer is not choking us and is interested while the client is choking it:
it lands in the preferred set and is sent `Choke(false)`. -/
theorem choker_download_actions_witness :
    (sortDesc [⟨5, ⟨true, false, false, true⟩⟩]).Perm [⟨5, ⟨true, false, false, true⟩⟩] ∧
    List.Sorted (fun a b : ConnSnap => b.downloaded ≤ a.downloaded)
      (sortDesc [⟨5, ⟨true, false, false, true⟩⟩]) ∧
    (downloadActions [⟨5, ⟨true, false, false, true⟩⟩])[0]? =
      some (⟨5, ⟨true, false, false, true⟩⟩,
        if ((!(⟨5, ⟨true, false, false, true⟩⟩ : ConnSnap).state.peer_choked &&
              (⟨5, ⟨true, false, false, true⟩⟩ : ConnSnap).state.peer_interested) = true ∧
              (((sortDesc [⟨5, ⟨true, false, false, true⟩⟩]).take 0).filter
                (fun x => !x.state.peer_choked && x.state.peer_interested)).length < 4)
           ∨ (!(⟨5, ⟨true, false, false, true⟩⟩ : ConnSnap).state.peer_choked &&
               !(⟨5, ⟨true, false, false, true⟩⟩ : ConnSnap).state.peer_interested &&
               (decide (downloaderThreshold (sortDesc [⟨5, ⟨true, false, false, true⟩⟩]) <
                  (⟨5, ⟨true, false, false, true⟩⟩ : ConnSnap).downloaded) ||
                decide (downloaderThreshold (sortDesc [⟨5, ⟨true, false, false, true⟩⟩]) = 0))) = true
        then (if (⟨5, ⟨true, false, false, true⟩⟩ : ConnSnap).state.client_choked = true
              then some false else none)
        else (if (⟨5, ⟨true, false, false, true⟩⟩ : ConnSnap).state.client_choked = true
              then none else some true)) :=
  choker_download_actions [⟨5, ⟨true, false, false, true⟩⟩] 0
    ⟨5, ⟨true, false, false, true⟩⟩ (by decide)

end Continuity
